import Mathlib

/-!
The file `internal/nhctl/daemon_handler/get.go` of nocalhost.

A shallow embedding of the resource query-and-aggregation handler
(`HandleGetResourceInfoRequest`, `getApplicationByNs`, `getApp`,
`getServiceProfile`) together with the part of Go's `sort` package that
`sort.SliceStable` runs (`stable_func`, `insertionSort_func`, `symMerge_func`,
`rotate_func`, `swapRange_func`).

Conventions of the embedding:

* Go strings are Lean `String`s; Go compares strings bytewise, which on valid
  UTF-8 is the code-point lexicographic order of `String`.
* A Go `(value, error)` result is a pair whose second component is
  `Option Error` (`none` is a nil error); both components are kept because the
  code inspects them separately.
* A Go pointer that may be nil is an `Option`; a slice that may be nil and is
  tested against nil is an `Option (List _)`.
* Packages outside the file (`resouce_cache`, `appmeta_manager`, `nocalhost`,
  `app`, `clientcmd`) are the fields of `Collaborators`.
* The iteration order of a Go `range` over a map is an explicit argument.
-/

namespace Nocalhost

/-! ## Data model -/

/-- Go `error` values; the handler only ever tests them against nil. -/
abbrev Error := String

/-- A cluster object held by the cache (`interface{}` asserted to
`metav1.Object`): the handler reads `GetName()` and passes the rest through. -/
structure Object where
  Name : String
  Raw : String
deriving DecidableEq

/-- Service profile record `profile.SvcProfileV2`; only `Name` is read. -/
structure SvcProfileV2 where
  Name : String
  Raw : String
deriving DecidableEq

/-- Application profile record `profile.AppProfileV2`: the fields read by
`getServiceProfile`. -/
structure AppProfileV2 where
  Kubeconfig : String
  SvcProfile : List (Option SvcProfileV2)
deriving DecidableEq

/-- Value of `app.NewApplication`: the handler only calls `GetDescription()`. -/
structure Application where
  GetDescription : Option AppProfileV2
deriving DecidableEq

/-- Modelled from the spec: the registry record `appmeta.ApplicationMeta`, whose
declaration is outside this file ("identity + state of a logical application
deployed into a namespace"). The handler reads `Application` only. -/
structure ApplicationMeta where
  ApplicationState : String
  Ns : String
  Application : String
deriving DecidableEq

/-- Cache handle `*resouce_cache.Search`, given by the answers of the three
methods the handler calls. A nil handle is not told apart from a working one:
every result that uses the handle assumes that `GetSearch` returned a nil
error. -/
structure Search where
  GetAllByResourceType : String → List Object × Option Error
  GetByResourceAndNamespace : String → String → String → List Object × Option Error
  GetByResourceAndNameAndAppAndNamespace :
    String → String → String → String → List Object × Option Error

/-- Value of `clientcmd.NewClientConfigFromBytes`: the answer of `Namespace()`. -/
structure ClientConfig where
  Namespace : String × Bool × Option Error
deriving DecidableEq

/-- The request `command.GetResourceInfoCommand`: the fields the handler reads. -/
structure GetResourceInfoCommand where
  KubeConfig : String
  Namespace : String
  AppName : String
  Resource : String
  ResourceName : String
deriving DecidableEq

/-- The packages the handler calls into. `SortByCreateTimestampAsc` receives the
slice by value and reorders it in place, so the caller's slice keeps its
length. -/
structure Collaborators where
  GetProfileV2 : String → String → Option AppProfileV2 × Option Error
  NewApplication : String → String → String → Bool → Option Application × Option Error
  GetApplicationMetas : String → String → Option (List (Option ApplicationMeta))
  GetApplicationMeta : String → String → String → Option ApplicationMeta
  GetSearch : String → String → Search × Option Error
  NewClientConfigFromBytes : String → Option ClientConfig × Option Error
  SortByCreateTimestampAsc : (items : List Object) → { r : List Object // r.length = items.length }

structure Item where
  Metadata : Object
  Description : Option SvcProfileV2
deriving DecidableEq

structure Resource where
  Name : String
  List : List Item
deriving DecidableEq

structure Group where
  GroupName : String
  List : List Resource
deriving DecidableEq

structure App where
  Name : String
  Groups : List Group
deriving DecidableEq

structure Result where
  Namespace : String
  Application : List App
deriving DecidableEq

/-- The `interface{}` returned by `HandleGetResourceInfoRequest`, by dynamic
type. `nil` is the untyped nil of lines 67, 121 and 137; `metas none` is a nil
`[]*ApplicationMeta` and `meta none` a nil `*ApplicationMeta`. -/
inductive Response where
  | nil
  | results (l : List Result)
  | result (r : Result)
  | metas (l : Option (List (Option ApplicationMeta)))
  | meta (m : Option ApplicationMeta)
  | items (l : List Item)
  | item (i : Item)
deriving DecidableEq

/-! ## `getServiceProfile` (lines 28-51) -/

/-- Lines 28-51. The Go map `serviceMap` is the lookup function; a missing key
gives the nil pointer. Errors are logged only. -/
def getServiceProfile (w : Collaborators) (ns appName : String) : String → Option SvcProfileV2 :=
  let serviceMap : String → Option SvcProfileV2 := fun _ => none
  match (w.GetProfileV2 ns appName).1 with
  | none => serviceMap
  | some profileV2 =>
    match (w.NewApplication appName ns profileV2.Kubeconfig true).1 with
    | none => serviceMap
    | some nocalhostApp =>
      match nocalhostApp.GetDescription with
      | none => serviceMap
      | some description =>
        description.SvcProfile.foldl
          (fun m svc =>
            match svc with
            | some svcProfileV2 => fun k => if k = svcProfileV2.Name then some svcProfileV2 else m k
            | none => m)
          serviceMap

/-! ## `getApp` (lines 155-179) -/

/-- Lines 156-161: the entries of the map literal, in the order written. -/
def groupToTypeMap : List (String × List String) :=
  [("Workloads", ["deployments", "statefulsets", "daemonsets", "jobs", "cronjobs", "pods"]),
   ("Networks", ["services", "endpoints", "ingresses", "networkpolicies"]),
   ("Configurations",
     ["configmaps", "secrets", "horizontalpodautoscalers", "resourcequotas",
      "poddisruptionbudgets"]),
   ("Storages", ["persistentvolumes", "persistentvolumeclaims", "storageclasses"])]

/-- A sequence in which `range groupToTypeMap` may visit the entries of the map:
every entry once, in any order. -/
def IsRangeOrder (rangeOrder : List (String × List String)) : Prop :=
  rangeOrder.Perm groupToTypeMap

instance (rangeOrder : List (String × List String)) : Decidable (IsRangeOrder rangeOrder) := by
  unfold IsRangeOrder; infer_instance

/-- Lines 169-172: the items of one kind. -/
def getApp.items (profileMap : String → Option SvcProfileV2) (resourceList : List Object) :
    List Item :=
  resourceList.foldl
    (fun items v => items ++ [{ Metadata := v, Description := profileMap v.Name }]) []

/-- Lines 165-175: the resources of one group. -/
def getApp.resources (profileMap : String → Option SvcProfileV2) (ns : String) (search : Search)
    (types : List String) : List Resource :=
  types.foldl
    (fun resources resource =>
      let r := search.GetByResourceAndNamespace resource "" ns
      if r.2 = none then
        resources ++ [{ Name := resource, List := getApp.items profileMap r.1 }]
      else resources)
    []

/-- Lines 155-179. `rangeOrder` is the order in which the `range` of line 164
visits `groupToTypeMap` in this call. -/
def getApp (w : Collaborators) (rangeOrder : List (String × List String))
    (ns appName : String) (search : Search) : App :=
  let profileMap := getServiceProfile w ns appName
  { Name := appName
    Groups := rangeOrder.foldl
      (fun groups entry =>
        groups ++ [{ GroupName := entry.1
                     List := getApp.resources profileMap ns search entry.2 }])
      [] }

/-! ## `getApplicationByNs` (lines 144-153) -/

/-- Lines 144-153. `rangeOrder i` is the map iteration order inside the `getApp`
call made for the `i`-th entry of the registry's list. -/
def getApplicationByNs (w : Collaborators) (rangeOrder : Nat → List (String × List String))
    (ns kubeconfig : String) (search : Search) : Result :=
  let applicationMetaList := (w.GetApplicationMetas ns kubeconfig).getD []
  { Namespace := ns
    Application := applicationMetaList.enum.foldl
      (fun apps im =>
        match im.2 with
        | some applicationMeta =>
          apps ++ [getApp w (rangeOrder im.1) ns applicationMeta.Application search]
        | none => apps)
      [] }

/-! ## Go's `sort.SliceStable` (package `sort`, `zsortfunc.go`)

`sort.SliceStable(x, less)` runs `stable_func(lessSwap{less, swap}, len(x))`,
where `swap` exchanges two entries of `x` and `less(i, j)` is called on the
indices of the current contents of `x`. The slice is a `List`; every loop is a
recursion or a fold over the values of its counter. Indices are natural
numbers: in every call reached from `stable_func` the subtractions below are
taken between ordered operands, and `int(uint(i+j) >> 1)` is `(i + j) / 2`.
Loops whose counter is not a simple range carry a `fuel` argument that bounds
the number of iterations; it is always started at a value the loop cannot
exhaust (`searchLoop_spec`, `rotate_loop_spec`, `symMerge_go_spec`,
`insertBlocks_spec`, `mergePass_spec` and `mergeLoop_spec` prove the results
under exactly the fuel passed here). -/

namespace GoSort

variable {α : Type} [Inhabited α]

/-- Entry `data[i]` of the slice being sorted. -/
def elem (data : List α) (i : Nat) : α := data.getD i default

/-- Method `data.Swap(i, j)`: the swapper of the slice. -/
def Swap (data : List α) (i j : Nat) : List α :=
  (data.set i (elem data j)).set j (elem data i)

/-- Method `data.Less(i, j)`: the closure reads the slice as it currently is. -/
def Less (less : α → α → Bool) (data : List α) (i j : Nat) : Bool :=
  less (elem data i) (elem data j)

/-- Inner loop of `insertionSort_func`:
`for j := i; j > a && data.Less(j, j-1); j-- { data.Swap(j, j-1) }`,
started at `j`. -/
def insertionSort_func.inner (less : α → α → Bool) (a : Nat) : Nat → List α → List α
  | 0, data => data
  | j + 1, data =>
    if a < j + 1 ∧ Less less data (j + 1) j = true then
      insertionSort_func.inner less a j (Swap data (j + 1) j)
    else data

/-- Go: `func insertionSort_func(data lessSwap, a, b int)`, whose outer loop is
`for i := a + 1; i < b; i++`. -/
def insertionSort_func (less : α → α → Bool) (data : List α) (a b : Nat) : List α :=
  (List.range' (a + 1) (b - (a + 1))).foldl
    (fun data i => insertionSort_func.inner less a i data) data

/-- Go: `func swapRange_func(data lessSwap, a, b, n int)`:
`for i := 0; i < n; i++ { data.Swap(a+i, b+i) }`. -/
def swapRange_func (data : List α) (a b n : Nat) : List α :=
  (List.range n).foldl (fun data i => Swap data (a + i) (b + i)) data

/-- Loop of `rotate_func` with the closing `swapRange_func(data, m-i, m, i)`:
`for i != j { if i > j { swapRange_func(data, m-i, m, j); i -= j }
else { swapRange_func(data, m-i, m+j-i, i); j -= i } }`. -/
def rotate_func.loop (m : Nat) : Nat → List α → Nat → Nat → List α
  | 0, data, _, _ => data
  | fuel + 1, data, i, j =>
    if i ≠ j then
      if i > j then
        rotate_func.loop m fuel (swapRange_func data (m - i) m j) (i - j) j
      else
        rotate_func.loop m fuel (swapRange_func data (m - i) (m + j - i) i) i (j - i)
    else swapRange_func data (m - i) m i

/-- Go: `func rotate_func(data lessSwap, a, m, b int)`, with `i := m - a` and
`j := b - m`. -/
def rotate_func (data : List α) (a m b : Nat) : List α :=
  rotate_func.loop m (m - a + (b - m)) data (m - a) (b - m)

/-- The binary-search loop used three times by `symMerge_func`:
`for i < j { h := int(uint(i+j) >> 1); if cond(h) { i = h + 1 } else { j = h } }`;
the value is the final `i`. -/
def searchLoop (cond : Nat → Bool) : Nat → Nat → Nat → Nat
  | 0, i, _ => i
  | fuel + 1, i, j =>
    if i < j then
      if cond ((i + j) / 2) then searchLoop cond fuel ((i + j) / 2 + 1) j
      else searchLoop cond fuel i ((i + j) / 2)
    else i

/-- Body of `symMerge_func(data, a, m, b)`; `fuel` bounds the recursion depth.
The three branches are `if m-a == 1`, `if b-m == 1` and the general case with
`mid := int(uint(a+b) >> 1)`, `n := mid + m`, `p := n - 1`, the search
`if !data.Less(p-c, c) { start = c + 1 } else { r = c }` and
`end := n - start`. -/
def symMerge_func.go (less : α → α → Bool) : Nat → List α → Nat → Nat → Nat → List α
  | 0, data, _, _, _ => data
  | fuel + 1, data, a, m, b =>
    if m - a = 1 then
      let i := searchLoop (fun h => Less less data h a) (b - m) m b
      (List.range' a (i - 1 - a)).foldl (fun data k => Swap data k (k + 1)) data
    else if b - m = 1 then
      let i := searchLoop (fun h => !Less less data m h) (m - a) a m
      (List.range' (i + 1) (m - i)).reverse.foldl (fun data k => Swap data k (k - 1)) data
    else
      let mid := (a + b) / 2
      let n := mid + m
      let start₀ := if m > mid then n - b else a
      let r := if m > mid then mid else m
      let p := n - 1
      let start := searchLoop (fun c => !Less less data (p - c) c) (r - start₀) start₀ r
      let end_ := n - start
      let data₁ := if start < m ∧ m < end_ then rotate_func data start m end_ else data
      let data₂ :=
        if a < start ∧ start < mid then symMerge_func.go less fuel data₁ a start mid else data₁
      if mid < end_ ∧ end_ < b then symMerge_func.go less fuel data₂ mid end_ b else data₂

/-- Go: `func symMerge_func(data lessSwap, a, m, b int)`. -/
def symMerge_func (less : α → α → Bool) (data : List α) (a m b : Nat) : List α :=
  symMerge_func.go less (b - a) data a m b

/-- First loop of `stable_func` with the call that follows it:
`for b <= n { insertionSort_func(data, a, b); a = b; b += blockSize }`,
`insertionSort_func(data, a, n)`. -/
def stable_func.insertBlocks (less : α → α → Bool) (blockSize n : Nat) :
    Nat → List α → Nat → Nat → List α
  | 0, data, _, _ => data
  | fuel + 1, data, a, b =>
    if b ≤ n then
      stable_func.insertBlocks less blockSize n fuel (insertionSort_func less data a b) b
        (b + blockSize)
    else insertionSort_func less data a n

/-- One pass of the second loop of `stable_func`:
`for b <= n { symMerge_func(data, a, a+blockSize, b); a = b; b += 2 * blockSize }`,
`if m := a + blockSize; m < n { symMerge_func(data, a, m, n) }`. -/
def stable_func.mergePass (less : α → α → Bool) (blockSize n : Nat) :
    Nat → List α → Nat → Nat → List α
  | 0, data, _, _ => data
  | fuel + 1, data, a, b =>
    if b ≤ n then
      stable_func.mergePass less blockSize n fuel (symMerge_func less data a (a + blockSize) b) b
        (b + 2 * blockSize)
    else if a + blockSize < n then symMerge_func less data a (a + blockSize) n
    else data

/-- Second loop of `stable_func`:
`for blockSize < n { a, b = 0, 2*blockSize; ...; blockSize *= 2 }`. -/
def stable_func.mergeLoop (less : α → α → Bool) (n : Nat) : Nat → List α → Nat → List α
  | 0, data, _ => data
  | fuel + 1, data, blockSize =>
    if blockSize < n then
      stable_func.mergeLoop less n fuel
        (stable_func.mergePass less blockSize n (n + 1) data 0 (2 * blockSize)) (blockSize * 2)
    else data

/-- Go: `func stable_func(data lessSwap, n int)`, with `blockSize := 20`. -/
def stable_func (less : α → α → Bool) (data : List α) (n : Nat) : List α :=
  stable_func.mergeLoop less n n
    (stable_func.insertBlocks less 20 n (n + 1) data 0 20) 20

/-- Go: `func SliceStable(x any, less func(i, j int) bool)`; the value is the
slice after the call. -/
def SliceStable (x : List α) (less : α → α → Bool) : List α :=
  stable_func less x x.length

end GoSort

/-! ## `HandleGetResourceInfoRequest` (lines 53-142) -/

/-- Lines 91-103: the comparator handed to `sort.SliceStable`, as a function of
the entries `metas[i]` and `metas[j]`. -/
def metasLess (mi mj : Option ApplicationMeta) : Bool :=
  let n1 := match mi with
    | some m => m.Application
    | none => ""
  let n2 := match mj with
    | some m => m.Application
    | none => ""
  if n1 > n2 then false else true

/-- The name by which the comparator orders an entry: `Application`, or the empty
string for a nil entry. -/
def metaName (m : Option ApplicationMeta) : String :=
  match m with
  | some m => m.Application
  | none => ""

/-- Lines 56-61: the variable `ns` after the attempt to derive a default namespace
from the credential. -/
def HandleGetResourceInfoRequest.ns (w : Collaborators) (request : GetResourceInfoCommand) :
    String :=
  if request.Namespace = "" then
    let c := w.NewClientConfigFromBytes request.KubeConfig
    match c.1 with
    | some config => if c.2 ≠ none then config.Namespace.1 else ""
    | none => ""
  else ""

/-- Lines 62 and 64: the call of `resouce_cache.GetSearch`. -/
def HandleGetResourceInfoRequest.search (w : Collaborators)
    (request : GetResourceInfoCommand) : Search × Option Error :=
  if request.Namespace = "" then
    w.GetSearch request.KubeConfig (HandleGetResourceInfoRequest.ns w request)
  else w.GetSearch request.KubeConfig request.Namespace

/-- The variable `err` of line 55 when line 66 tests it. Line 58 declares a
second `err` inside the block of lines 57-63, and line 62 assigns that one, so
the variable of line 55 is assigned on line 64 only. -/
def HandleGetResourceInfoRequest.err (w : Collaborators) (request : GetResourceInfoCommand) :
    Option Error :=
  if request.Namespace = "" then none
  else (HandleGetResourceInfoRequest.search w request).2

/-- Lines 53-142. `rangeOrder i j` is the map iteration order inside the `getApp`
call made for the `j`-th registry entry of the `i`-th namespace visited. -/
def HandleGetResourceInfoRequest (w : Collaborators)
    (rangeOrder : Nat → Nat → List (String × List String))
    (request : GetResourceInfoCommand) : Response :=
  let ns := HandleGetResourceInfoRequest.ns w request
  let s := (HandleGetResourceInfoRequest.search w request).1
  if HandleGetResourceInfoRequest.err w request ≠ none then Response.nil
  else if request.Resource = "all" then
    if request.Namespace = "" then
      let nsObjectList := s.GetAllByResourceType "namespaces"
      if nsObjectList.2 = none ∧ nsObjectList.1.length > 0 then
        Response.results
          (nsObjectList.1.enum.foldl
            (fun result io =>
              result ++ [getApplicationByNs w (rangeOrder io.1) io.2.Name request.KubeConfig s])
            [])
      else Response.result (getApplicationByNs w (rangeOrder 0) ns request.KubeConfig s)
    else
      Response.result (getApplicationByNs w (rangeOrder 0) request.Namespace request.KubeConfig s)
  else if request.Resource = "app" ∨ request.Resource = "application" then
    if request.ResourceName = "" then
      match w.GetApplicationMetas request.Namespace request.KubeConfig with
      | some metas => Response.metas (some (GoSort.SliceStable metas metasLess))
      | none => Response.metas none
    else
      Response.meta
        (w.GetApplicationMeta request.Namespace request.ResourceName request.KubeConfig)
  else
    let serviceMap := getServiceProfile w request.Namespace request.ResourceName
    if request.ResourceName = "" then
      let r :=
        if request.AppName = "" then
          s.GetByResourceAndNamespace request.Resource "" request.Namespace
        else
          s.GetByResourceAndNameAndAppAndNamespace request.Resource "" request.AppName
            request.Namespace
      if r.2 ≠ none ∨ r.1.length = 0 then Response.nil
      else
        Response.items
          ((w.SortByCreateTimestampAsc r.1).1.foldl
            (fun result i => result ++ [{ Metadata := i, Description := serviceMap i.Name }])
            [])
    else
      let r :=
        if request.AppName = "" then
          s.GetByResourceAndNamespace request.Resource request.ResourceName request.Namespace
        else
          s.GetByResourceAndNameAndAppAndNamespace request.Resource request.ResourceName
            request.AppName request.Namespace
      if r.2 ≠ none ∨ r.1.length = 0 then Response.nil
      else
        match r.1 with
        | i :: _ => Response.item { Metadata := i, Description := serviceMap i.Name }
        | [] => Response.nil

/-! ## Concrete collaborators used to instantiate the results -/

/-- A cache handle whose every query succeeds and finds nothing. -/
def emptySearch : Search :=
  { GetAllByResourceType := fun _ => ([], none)
    GetByResourceAndNamespace := fun _ _ _ => ([], none)
    GetByResourceAndNameAndAppAndNamespace := fun _ _ _ _ => ([], none) }

/-- Collaborators of an empty installation: no profile, no application, an
unreadable credential, an empty cache. -/
def emptyWorld : Collaborators :=
  { GetProfileV2 := fun _ _ => (none, some "no profile")
    NewApplication := fun _ _ _ _ => (none, some "no application")
    GetApplicationMetas := fun _ _ => none
    GetApplicationMeta := fun _ _ _ => none
    GetSearch := fun _ _ => (emptySearch, none)
    NewClientConfigFromBytes := fun _ => (none, some "unreadable")
    SortByCreateTimestampAsc := fun items => ⟨items, rfl⟩ }

/-- A cache with two pods and one service, in which the query for jobs fails. -/
def sampleSearch : Search :=
  { GetAllByResourceType := fun kind =>
      if kind = "namespaces" then ([⟨"ns1", "n1"⟩, ⟨"ns2", "n2"⟩], none) else ([], none)
    GetByResourceAndNamespace := fun kind name _ =>
      if kind = "jobs" then ([], some "jobs: not served")
      else if kind = "pods" then
        (if name = "" then [⟨"web", "p1"⟩, ⟨"web", "p2"⟩] else [⟨name, "p1"⟩, ⟨name, "p2"⟩], none)
      else if kind = "services" then ([⟨"web", "s1"⟩], none)
      else ([], none)
    GetByResourceAndNameAndAppAndNamespace := fun kind name _ _ =>
      if kind = "pods" then ([⟨name, "p3"⟩], none) else ([], none) }

/-- The cache of `sampleSearch` with the query for jobs answered (no jobs). -/
def sampleSearchHealthy : Search :=
  { sampleSearch with
    GetByResourceAndNamespace := fun kind name ns =>
      if kind = "jobs" then ([], none) else sampleSearch.GetByResourceAndNamespace kind name ns }

/-- Two registry entries with the same application name and a nil entry. -/
def sampleMetas : List (Option ApplicationMeta) :=
  [some ⟨"INSTALLED", "ns1", "web"⟩, none, some ⟨"INSTALLING", "ns1", "web"⟩]

/-- A cluster with namespaces `ns1` and `ns2`, a credential whose context names
the namespace `dev`, and the registry entries of `sampleMetas` in `ns1`. -/
def sampleWorld : Collaborators :=
  { emptyWorld with
    GetSearch := fun _ _ => (sampleSearch, none)
    NewClientConfigFromBytes := fun _ => (some ⟨("dev", false, none)⟩, none)
    GetApplicationMetas := fun ns _ => if ns = "ns1" then some sampleMetas else none }

/-- A cluster like `sampleWorld` whose namespace enumeration fails. -/
def noEnumerationWorld : Collaborators :=
  { sampleWorld with
    GetSearch := fun _ _ =>
      ({ sampleSearch with GetAllByResourceType := fun _ => ([], some "forbidden") }, none) }

/-- The iteration order that visits `groupToTypeMap` as written. -/
def writtenOrder : Nat → Nat → List (String × List String) := fun _ _ => groupToTypeMap

/-! ## Vocabulary of the results on `sort.SliceStable` -/

namespace GoSort

variable {α : Type} [Inhabited α] {κ : Type} [LinearOrder κ]

/-- The list `data'` is `data` with the entries of positions `[a, b)` rearranged
among themselves. -/
structure Shuffled (a b : Nat) (data data' : List α) : Prop where
  length_eq : data'.length = data.length
  perm : data'.Perm data
  frame : ∀ k, k < a ∨ b ≤ k → elem data' k = elem data k
  inside : ∀ i, a ≤ i → i < b → ∃ j, a ≤ j ∧ j < b ∧ elem data' i = elem data j

/-- The keys of positions `[a, b)` are in ascending order. -/
def SortedOn (key : α → κ) (data : List α) (a b : Nat) : Prop :=
  ∀ i j, a ≤ i → i ≤ j → j < b → key (elem data i) ≤ key (elem data j)

/-- The comparator never contradicts the order of the keys: it may answer either
way on equal keys. -/
structure Compat (less : α → α → Bool) (key : α → κ) : Prop where
  of_true : ∀ x y, less x y = true → key x ≤ key y
  of_false : ∀ x y, less x y = false → key y ≤ key x

/-- Every block `[x, x + bs)` starting at a multiple of `bs`, cut at `n`, is
sorted. -/
def BlocksSorted (key : α → κ) (data : List α) (bs n : Nat) : Prop :=
  ∀ x, bs ∣ x → SortedOn key data x (min (x + bs) n)

end GoSort

/-! ## Vocabulary of the results on the handler -/

/-- The query of line 167 for `kind` returned a nil error. -/
def querySucceeds (search : Search) (ns kind : String) : Bool :=
  decide ((search.GetByResourceAndNamespace kind "" ns).2 = none)

/-- The `Resource` entry that lines 169-173 build for `kind`. -/
def resourceEntry (profileMap : String → Option SvcProfileV2) (ns : String) (search : Search)
    (kind : String) : Resource :=
  { Name := kind
    List := (search.GetByResourceAndNamespace kind "" ns).1.map
      (fun v => { Metadata := v, Description := profileMap v.Name }) }

/-- The comparator of lines 91-103 written on lists of characters. -/
def metasLessChars (mi mj : Option ApplicationMeta) : Bool :=
  if (metaName mj).toList < (metaName mi).toList then false else true

/-- The cache query a request of a generic kind makes: line 116 or 132 without an
application name, line 118 or 134 with one. Lines 116 and 118 pass the empty
resource name, which is `request.ResourceName` on that path. -/
def HandleGetResourceInfoRequest.query (w : Collaborators) (request : GetResourceInfoCommand) :
    List Object × Option Error :=
  if request.AppName = "" then
    (HandleGetResourceInfoRequest.search w request).1.GetByResourceAndNamespace
      request.Resource request.ResourceName request.Namespace
  else
    (HandleGetResourceInfoRequest.search w request).1.GetByResourceAndNameAndAppAndNamespace
      request.Resource request.ResourceName request.AppName request.Namespace

/-! ## Correctness of the model of `sort.SliceStable`

For a comparator that never contradicts an order of keys (it may answer either
way on equal keys), every stage rearranges the slice inside its index range and
leaves the keys of that range ascending. -/

namespace GoSort

variable {α : Type} [Inhabited α] {κ : Type} [LinearOrder κ]

theorem elem_eq_getElem (data : List α) {i : Nat} (h : i < data.length) :
    elem data i = data[i] := by
  simp [elem, List.getD_eq_getElem?_getD, List.getElem?_eq_getElem h]

theorem length_Swap (data : List α) (i j : Nat) : (Swap data i j).length = data.length := by
  simp [Swap]

theorem elem_Swap (data : List α) {i j : Nat} (hi : i < data.length) (hj : j < data.length)
    (k : Nat) :
    elem (Swap data i j) k =
      if k = j then elem data i else if k = i then elem data j else elem data k := by
  unfold Swap elem
  simp only [List.getD_eq_getElem?_getD, List.getElem?_set, List.length_set]
  by_cases hkj : k = j
  · subst hkj; simp [hj]
  · by_cases hki : k = i
    · subst hki; simp [hi, Ne.symm hkj, hkj]
    · simp [hkj, hki, Ne.symm hkj, Ne.symm hki]

theorem perm_set_cons (l : List α) (j : Nat) (x : α) (hj : j < l.length) :
    (elem l j :: l.set j x).Perm (x :: l) := by
  induction l generalizing j with
  | nil => simp at hj
  | cons y t ih =>
    cases j with
    | zero => simpa [elem] using List.Perm.swap x y t
    | succ j =>
      have hj' : j < t.length := by simpa using hj
      have h1 : elem (y :: t) (j + 1) = elem t j := by simp [elem]
      rw [h1, List.set_cons_succ]
      exact (List.Perm.swap y (elem t j) (t.set j x)).trans
        (((ih j hj').cons y).trans (List.Perm.swap x y t))

theorem Swap_perm (data : List α) {i j : Nat} (hi : i < data.length) (hj : j < data.length) :
    (Swap data i j).Perm data := by
  induction data generalizing i j with
  | nil => simp at hi
  | cons y t ih =>
    cases i with
    | zero =>
      cases j with
      | zero => simp [Swap, elem]
      | succ j =>
        have hj' : j < t.length := by simpa using hj
        have := perm_set_cons t j y hj'
        simpa [Swap, elem] using this
    | succ i =>
      have hi' : i < t.length := by simpa using hi
      cases j with
      | zero =>
        have := perm_set_cons t i y hi'
        simpa [Swap, elem] using this
      | succ j =>
        have hj' : j < t.length := by simpa using hj
        have := (ih hi' hj').cons y
        simpa [Swap, elem] using this

theorem Shuffled.refl (a b : Nat) (data : List α) : Shuffled a b data data :=
  ⟨rfl, List.Perm.refl _, fun _ _ => rfl, fun i h1 h2 => ⟨i, h1, h2, rfl⟩⟩

theorem Shuffled.trans {a b : Nat} {d₁ d₂ d₃ : List α} (h₁ : Shuffled a b d₁ d₂)
    (h₂ : Shuffled a b d₂ d₃) : Shuffled a b d₁ d₃ := by
  refine ⟨h₂.length_eq.trans h₁.length_eq, h₂.perm.trans h₁.perm, ?_, ?_⟩
  · intro k hk
    rw [h₂.frame k hk, h₁.frame k hk]
  · intro i hi1 hi2
    obtain ⟨j, hj1, hj2, hj⟩ := h₂.inside i hi1 hi2
    obtain ⟨l, hl1, hl2, hl⟩ := h₁.inside j hj1 hj2
    exact ⟨l, hl1, hl2, hj.trans hl⟩

theorem Shuffled.mono {a b a' b' : Nat} {d₁ d₂ : List α} (h : Shuffled a b d₁ d₂)
    (ha : a' ≤ a) (hb : b ≤ b') : Shuffled a' b' d₁ d₂ := by
  refine ⟨h.length_eq, h.perm, ?_, ?_⟩
  · intro k hk
    exact h.frame k (by omega)
  · intro i hi1 hi2
    by_cases hin : a ≤ i ∧ i < b
    · obtain ⟨j, hj1, hj2, hj⟩ := h.inside i hin.1 hin.2
      exact ⟨j, by omega, by omega, hj⟩
    · exact ⟨i, hi1, hi2, h.frame i (by omega)⟩

theorem Shuffled.swap {a b : Nat} (data : List α) {i j : Nat} (hai : a ≤ i) (hib : i < b)
    (haj : a ≤ j) (hjb : j < b) (hb : b ≤ data.length) : Shuffled a b data (Swap data i j) := by
  have hi : i < data.length := by omega
  have hj : j < data.length := by omega
  refine ⟨length_Swap _ _ _, Swap_perm data hi hj, ?_, ?_⟩
  · intro k hk
    rw [elem_Swap data hi hj]
    have h1 : k ≠ j := by omega
    have h2 : k ≠ i := by omega
    simp [h1, h2]
  · intro k hk1 hk2
    rw [elem_Swap data hi hj]
    by_cases h1 : k = j
    · exact ⟨i, hai, hib, by simp [h1]⟩
    · by_cases h2 : k = i
      · exact ⟨j, haj, hjb, by rw [if_neg h1, if_pos h2]⟩
      · exact ⟨k, hk1, hk2, by simp [h1, h2]⟩

theorem SortedOn.sub {key : α → κ} {data : List α} {a b a' b' : Nat}
    (h : SortedOn key data a b) (ha : a ≤ a') (hb : b' ≤ b) : SortedOn key data a' b' :=
  fun i j h1 h2 h3 => h i j (by omega) h2 (by omega)

theorem SortedOn.congr {key : α → κ} {data data' : List α} {a b : Nat}
    (h : SortedOn key data a b) (he : ∀ k, a ≤ k → k < b → elem data' k = elem data k) :
    SortedOn key data' a b := by
  intro i j h1 h2 h3
  rw [he i h1 (by omega), he j (by omega) h3]
  exact h i j h1 h2 h3

theorem SortedOn.of_le {key : α → κ} {data : List α} {a b : Nat} (h : b ≤ a + 1) :
    SortedOn key data a b := by
  intro i j h1 h2 h3
  have : i = j := by omega
  rw [this]

/-- Two sorted runs whose keys are separated form one sorted run. -/
theorem SortedOn.glue {key : α → κ} {data : List α} {a m b : Nat}
    (h₁ : SortedOn key data a m) (h₂ : SortedOn key data m b)
    (hx : ∀ i j, a ≤ i → i < m → m ≤ j → j < b → key (elem data i) ≤ key (elem data j)) :
    SortedOn key data a b := by
  intro i j h1 h2 h3
  by_cases hj : j < m
  · exact h₁ i j h1 h2 hj
  · by_cases hi : m ≤ i
    · exact h₂ i j hi h2 h3
    · exact hx i j h1 (by omega) (by omega) h3

theorem inner_spec {less : α → α → Bool} {key : α → κ} (hc : Compat less key) (a i : Nat) :
    ∀ (j : Nat) (data : List α), j ≤ i → i < data.length →
      SortedOn key data a j → SortedOn key data j (i + 1) →
      (∀ x y, a ≤ x → x < j → j < y → y ≤ i → key (elem data x) ≤ key (elem data y)) →
      Shuffled a (i + 1) data (insertionSort_func.inner less a j data) ∧
        SortedOn key (insertionSort_func.inner less a j data) a (i + 1) := by
  intro j
  induction j with
  | zero =>
    intro data _ _ _ h2 _
    exact ⟨Shuffled.refl _ _ _, h2.sub (Nat.zero_le _) le_rfl⟩
  | succ j ih =>
    intro data hji hi h1 h2 h3
    unfold insertionSort_func.inner
    split_ifs with hcond
    · obtain ⟨haj, hless⟩ := hcond
      have hlt : key (elem data (j + 1)) ≤ key (elem data j) := hc.of_true _ _ hless
      have hj1 : j + 1 < data.length := by omega
      have hj0 : j < data.length := by omega
      have hsw : Shuffled a (i + 1) data (Swap data (j + 1) j) :=
        Shuffled.swap data (by omega) (by omega) (by omega) (by omega) (by omega)
      have ex : ∀ k, k ≠ j → k ≠ j + 1 → elem (Swap data (j + 1) j) k = elem data k := by
        intro k h1 h2
        rw [elem_Swap data hj1 hj0, if_neg h1, if_neg h2]
      have ej : elem (Swap data (j + 1) j) j = elem data (j + 1) := by
        rw [elem_Swap data hj1 hj0, if_pos rfl]
      have ej1 : elem (Swap data (j + 1) j) (j + 1) = elem data j := by
        rw [elem_Swap data hj1 hj0, if_neg (by omega), if_pos rfl]
      have p1 : SortedOn key (Swap data (j + 1) j) a j := by
        intro x y hx hxy hy
        rw [ex x (by omega) (by omega), ex y (by omega) (by omega)]
        exact h1 x y hx hxy (by omega)
      have p2 : SortedOn key (Swap data (j + 1) j) j (i + 1) := by
        intro x y hx hxy hy
        by_cases hxj : x = j
        · rw [hxj, ej]
          by_cases hyj : y = j
          · rw [hyj, ej]
          · by_cases hyj1 : y = j + 1
            · rw [hyj1, ej1]; exact hlt
            · rw [ex y hyj hyj1]; exact h2 (j + 1) y le_rfl (by omega) hy
        · by_cases hxj1 : x = j + 1
          · rw [hxj1, ej1]
            by_cases hyj1 : y = j + 1
            · rw [hyj1, ej1]
            · rw [ex y (by omega) hyj1]
              exact h3 j y (by omega) (by omega) (by omega) (by omega)
          · rw [ex x hxj hxj1, ex y (by omega) (by omega)]
            exact h2 x y (by omega) hxy hy
      have p3 : ∀ x y, a ≤ x → x < j → j < y → y ≤ i →
          key (elem (Swap data (j + 1) j) x) ≤ key (elem (Swap data (j + 1) j) y) := by
        intro x y hx hxj hjy hyi
        rw [ex x (by omega) (by omega)]
        by_cases hyj1 : y = j + 1
        · rw [hyj1, ej1]
          exact h1 x j hx (by omega) (by omega)
        · rw [ex y (by omega) hyj1]
          exact h3 x y hx (by omega) (by omega) hyi
      obtain ⟨r1, r2⟩ := ih (Swap data (j + 1) j) (by omega)
        (by rw [length_Swap]; exact hi) p1 p2 p3
      exact ⟨hsw.trans r1, r2⟩
    · refine ⟨Shuffled.refl _ _ _, ?_⟩
      by_cases haj : a < j + 1
      · have hless : Less less data (j + 1) j = false := by
          cases h : Less less data (j + 1) j
          · rfl
          · exact absurd ⟨haj, h⟩ hcond
        have hge : key (elem data j) ≤ key (elem data (j + 1)) := hc.of_false _ _ hless
        refine SortedOn.glue h1 h2 ?_
        intro x y hx hxj hjy hyi
        by_cases hy : y = j + 1
        · subst hy
          exact (h1 x j hx (by omega) (by omega)).trans hge
        · exact h3 x y hx hxj (by omega) (by omega)
      · exact h2.sub (by omega) le_rfl

theorem insertionSort_spec {less : α → α → Bool} {key : α → κ} (hc : Compat less key)
    (data : List α) (a b : Nat) (hb : b ≤ data.length) :
    Shuffled a b data (insertionSort_func less data a b) ∧
      SortedOn key (insertionSort_func less data a b) a b := by
  unfold insertionSort_func
  -- the loop invariant, by induction on the number of iterations done
  have main : ∀ (c : Nat) (d : List α), a + 1 + c ≤ b ∨ c = 0 → Shuffled a b data d →
      SortedOn key d a (a + 1) →
      Shuffled a b data ((List.range' (a + 1) c).foldl
          (fun data i => insertionSort_func.inner less a i data) d) ∧
        SortedOn key ((List.range' (a + 1) c).foldl
          (fun data i => insertionSort_func.inner less a i data) d) a (a + 1 + c) := by
    intro c
    induction c with
    | zero =>
      intro d _ hs h0
      exact ⟨by simpa using hs, by simpa using h0⟩
    | succ c ih =>
      intro d hcb hs h0
      have hcb' : a + 1 + (c + 1) ≤ b := by omega
      rw [List.range'_concat, List.foldl_append]
      obtain ⟨s1, s2⟩ := ih d (Or.inl (by omega)) hs h0
      simp only [List.foldl_cons, List.foldl_nil, Nat.mul_one, one_mul]
      set d' := (List.range' (a + 1) c).foldl
          (fun data i => insertionSort_func.inner less a i data) d with hd'
      have hlen : d'.length = data.length := s1.length_eq
      obtain ⟨r1, r2⟩ := inner_spec hc a (a + 1 + c) (a + 1 + c) d' le_rfl (by omega) s2
        (SortedOn.of_le (by omega)) (by intro x y _ _ _ _; omega)
      exact ⟨s1.trans (r1.mono le_rfl (by omega)), by simpa [Nat.add_assoc] using r2⟩
  by_cases hab : a + 1 ≤ b
  · obtain ⟨m1, m2⟩ := main (b - (a + 1)) data (Or.inl (by omega)) (Shuffled.refl _ _ _)
      (SortedOn.of_le le_rfl)
    exact ⟨m1, by
      have : a + 1 + (b - (a + 1)) = b := by omega
      rwa [this] at m2⟩
  · have : b - (a + 1) = 0 := by omega
    rw [this]
    exact ⟨by simpa using Shuffled.refl a b data, SortedOn.of_le (by omega)⟩

/-- The binary-search loop ends with `i = j`, its result splits `[i₀, j₀)` into a
part where `P` holds and a part where `Q` holds, whenever a positive probe
establishes `P` to its left and a negative probe establishes `Q` to its right. -/
theorem searchLoop_spec (cond : Nat → Bool) (P Q : Nat → Prop) (i₀ j₀ : Nat)
    (hP : ∀ h, i₀ ≤ h → h < j₀ → cond h = true → ∀ c, i₀ ≤ c → c ≤ h → P c)
    (hQ : ∀ h, i₀ ≤ h → h < j₀ → cond h = false → ∀ c, h ≤ c → c < j₀ → Q c) :
    ∀ (fuel i j : Nat), j - i ≤ fuel → i₀ ≤ i → i ≤ j → j ≤ j₀ →
      (∀ c, i₀ ≤ c → c < i → P c) → (∀ c, j ≤ c → c < j₀ → Q c) →
      i ≤ searchLoop cond fuel i j ∧ searchLoop cond fuel i j ≤ j ∧
        (∀ c, i₀ ≤ c → c < searchLoop cond fuel i j → P c) ∧
        (∀ c, searchLoop cond fuel i j ≤ c → c < j₀ → Q c) := by
  intro fuel
  induction fuel with
  | zero =>
    intro i j hf _ hij _ hp hq
    have : i = j := by omega
    subst this
    exact ⟨le_rfl, le_rfl, hp, hq⟩
  | succ fuel ih =>
    intro i j hf hi hij hj hp hq
    unfold searchLoop
    by_cases hlt : i < j
    · rw [if_pos hlt]
      have hh1 : i ≤ (i + j) / 2 := by omega
      have hh2 : (i + j) / 2 < j := by omega
      cases hcond : cond ((i + j) / 2)
      · rw [if_neg (by simp)]
        obtain ⟨r1, r2, r3, r4⟩ := ih i ((i + j) / 2) (by omega) hi hh1 (by omega) hp
          (fun c h1 h2 => hQ _ (by omega) (by omega) hcond c h1 h2)
        exact ⟨r1, by omega, r3, r4⟩
      · rw [if_pos rfl]
        obtain ⟨r1, r2, r3, r4⟩ := ih ((i + j) / 2 + 1) j (by omega) (by omega) (by omega) hj
          (fun c h1 h2 => hP _ (by omega) (by omega) hcond c h1 (by omega)) hq
        exact ⟨by omega, r2, r3, r4⟩
    · rw [if_neg hlt]
      have : i = j := by omega
      subst this
      exact ⟨le_rfl, le_rfl, hp, hq⟩

/-- The loop `for k := a; k < a+c; k++ { data.Swap(k, k+1) }` carries `data[a]` to position
`a+c` and moves the entries in between one place down. -/
theorem bubbleUp_spec (a : Nat) : ∀ (c : Nat) (data : List α), a + c < data.length →
    Shuffled a (a + c + 1) data
        ((List.range' a c).foldl (fun data k => Swap data k (k + 1)) data) ∧
      (∀ k, a ≤ k → k < a + c →
        elem ((List.range' a c).foldl (fun data k => Swap data k (k + 1)) data) k =
          elem data (k + 1)) ∧
      elem ((List.range' a c).foldl (fun data k => Swap data k (k + 1)) data) (a + c) =
        elem data a := by
  intro c
  induction c with
  | zero =>
    intro data _
    exact ⟨by simpa using Shuffled.refl a (a + 1) data, by intro k h1 h2; omega, by simp⟩
  | succ c ih =>
    intro data hlen
    obtain ⟨s, e1, e2⟩ := ih data (by omega)
    rw [List.range'_concat, List.foldl_append]
    simp only [List.foldl_cons, List.foldl_nil, Nat.mul_one, one_mul]
    set d := (List.range' a c).foldl (fun data k => Swap data k (k + 1)) data with hd
    have hdl : d.length = data.length := s.length_eq
    have hsw := @elem_Swap α _ d (a + c) (a + c + 1) (by omega) (by omega)
    refine ⟨(s.mono le_rfl (by omega)).trans
      (Shuffled.swap d (by omega) (by omega) (by omega) (by omega) (by omega)), ?_, ?_⟩
    · intro k hk1 hk2
      rw [hsw, if_neg (by omega)]
      by_cases hk : k = a + c
      · rw [if_pos hk, hk, s.frame (a + c + 1) (Or.inr (by omega))]
      · rw [if_neg hk, e1 k hk1 (by omega)]
    · have : a + (c + 1) = a + c + 1 := by omega
      rw [this, hsw, if_pos rfl, e2]

/-- The loop `for k := i+c; k > i; k-- { data.Swap(k, k-1) }` carries `data[i+c]` to
position `i` and moves the entries in between one place up. -/
theorem bubbleDown_spec (i : Nat) : ∀ (c : Nat) (data : List α), i + c < data.length →
    Shuffled i (i + c + 1) data
        ((List.range' (i + 1) c).reverse.foldl (fun data k => Swap data k (k - 1)) data) ∧
      (∀ k, i < k → k ≤ i + c →
        elem ((List.range' (i + 1) c).reverse.foldl (fun data k => Swap data k (k - 1)) data) k =
          elem data (k - 1)) ∧
      elem ((List.range' (i + 1) c).reverse.foldl (fun data k => Swap data k (k - 1)) data) i =
        elem data (i + c) := by
  intro c
  induction c with
  | zero =>
    intro data _
    exact ⟨by simpa using Shuffled.refl i (i + 1) data, by intro k h1 h2; omega, by simp⟩
  | succ c ih =>
    intro data hlen
    rw [List.range'_concat, List.reverse_append]
    simp only [List.reverse_cons, List.reverse_nil, List.nil_append, List.singleton_append,
      List.foldl_cons, Nat.mul_one, one_mul]
    have hidx : i + 1 + c - 1 = i + c := by omega
    rw [hidx]
    set d := Swap data (i + 1 + c) (i + c) with hd
    have hdl : d.length = data.length := length_Swap _ _ _
    have hsw := @elem_Swap α _ data (i + 1 + c) (i + c) (by omega) (by omega)
    obtain ⟨s, e1, e2⟩ := ih d (by omega)
    refine ⟨(Shuffled.swap data (by omega) (by omega) (by omega) (by omega) (by omega)).trans
      (s.mono le_rfl (by omega)), ?_, ?_⟩
    · intro k hk1 hk2
      by_cases hk : k = i + 1 + c
      · rw [hk, s.frame (i + 1 + c) (Or.inr (by omega)), hd, hsw, if_neg (by omega),
          if_pos rfl]
        congr 1
        omega
      · rw [e1 k hk1 (by omega), hd, hsw, if_neg (by omega), if_neg (by omega)]
    · rw [e2, hd, hsw, if_pos rfl]
      congr 1
      omega

/-- The call `swapRange_func(data, a, b, n)` exchanges the blocks `[a, a+n)` and `[b, b+n)`
when they do not overlap. -/
theorem swapRange_spec (a b : Nat) : ∀ (n : Nat) (data : List α), a + n ≤ b →
    b + n ≤ data.length →
    Shuffled a (b + n) data (swapRange_func data a b n) ∧
      (∀ k, a ≤ k → k < a + n → elem (swapRange_func data a b n) k = elem data (k - a + b)) ∧
      (∀ k, b ≤ k → k < b + n → elem (swapRange_func data a b n) k = elem data (k - b + a)) ∧
      (∀ k, k < a ∨ (a + n ≤ k ∧ k < b) ∨ b + n ≤ k →
        elem (swapRange_func data a b n) k = elem data k) := by
  intro n
  induction n with
  | zero =>
    intro data _ _
    refine ⟨by simpa [swapRange_func] using Shuffled.refl a b data, ?_, ?_, ?_⟩
    · intro k h1 h2; omega
    · intro k h1 h2; omega
    · intro k _; simp [swapRange_func]
  | succ n ih =>
    intro data hab hlen
    obtain ⟨s, e1, e2, e3⟩ := ih data (by omega) (by omega)
    have hstep : swapRange_func data a b (n + 1) =
        Swap (swapRange_func data a b n) (a + n) (b + n) := by
      simp [swapRange_func, List.range_succ, List.foldl_append]
    rw [hstep]
    set d := swapRange_func data a b n with hd
    have hdl : d.length = data.length := s.length_eq
    have hsw := @elem_Swap α _ d (a + n) (b + n) (by omega) (by omega)
    refine ⟨(s.mono le_rfl (by omega)).trans
      (Shuffled.swap d (by omega) (by omega) (by omega) (by omega) (by omega)), ?_, ?_, ?_⟩
    · intro k hk1 hk2
      rw [hsw, if_neg (by omega)]
      by_cases hk : k = a + n
      · rw [if_pos hk, e3 (b + n) (Or.inr (Or.inr le_rfl))]
        congr 1; omega
      · rw [if_neg hk, e1 k hk1 (by omega)]
    · intro k hk1 hk2
      by_cases hk : k = b + n
      · rw [hsw, if_pos hk, e3 (a + n) (Or.inr (Or.inl ⟨le_rfl, by omega⟩))]
        congr 1; omega
      · rw [hsw, if_neg hk, if_neg (by omega), e2 k hk1 (by omega)]
    · intro k hk
      rw [hsw, if_neg (by omega), if_neg (by omega), e3 k (by omega)]

/-- The loop of `rotate_func` exchanges the adjacent blocks `[m-i, m)` and
`[m, m+j)`. -/
theorem rotate_loop_spec (m : Nat) : ∀ (fuel : Nat) (data : List α) (i j : Nat),
    i + j ≤ fuel → 1 ≤ i → 1 ≤ j → i ≤ m → m + j ≤ data.length →
    Shuffled (m - i) (m + j) data (rotate_func.loop m fuel data i j) ∧
      (∀ k, m - i ≤ k → k < m - i + j →
        elem (rotate_func.loop m fuel data i j) k = elem data (k + i)) ∧
      (∀ k, m - i + j ≤ k → k < m + j →
        elem (rotate_func.loop m fuel data i j) k = elem data (k - j)) := by
  intro fuel
  induction fuel with
  | zero => intro data i j h1 h2 h3; omega
  | succ fuel ih =>
    intro data i j hf hi hj him hlen
    unfold rotate_func.loop
    by_cases hij : i = j
    · rw [if_neg (by simpa using hij)]
      obtain ⟨s, e1, e2, _⟩ := swapRange_spec (m - i) m i data (by omega) (by omega)
      refine ⟨by subst hij; exact s, ?_, ?_⟩
      · intro k hk1 hk2
        rw [e1 k hk1 (by omega)]
        congr 1; omega
      · intro k hk1 hk2
        rw [e2 k (by omega) (by omega)]
        congr 1; omega
    · rw [if_pos hij]
      by_cases hgt : i > j
      · rw [if_pos hgt]
        obtain ⟨s, e1, e2, e3⟩ := swapRange_spec (m - i) m j data (by omega) (by omega)
        set d := swapRange_func data (m - i) m j with hd
        have hdl : d.length = data.length := s.length_eq
        obtain ⟨s', f1, f2⟩ := ih d (i - j) j (by omega) (by omega) hj (by omega) (by omega)
        refine ⟨s.trans (s'.mono (by omega) le_rfl), ?_, ?_⟩
        · intro k hk1 hk2
          rw [s'.frame k (Or.inl (by omega)), e1 k hk1 hk2]
          congr 1; omega
        · intro k hk1 hk2
          by_cases hk : k < m - i + 2 * j
          · rw [f1 k (by omega) (by omega), e2 (k + (i - j)) (by omega) (by omega)]
            congr 1; omega
          · rw [f2 k (by omega) hk2, e3 (k - j) (Or.inr (Or.inl ⟨by omega, by omega⟩))]
      · rw [if_neg hgt]
        obtain ⟨s, e1, e2, e3⟩ :=
          swapRange_spec (m - i) (m + j - i) i data (by omega) (by omega)
        set d := swapRange_func data (m - i) (m + j - i) i with hd
        have hdl : d.length = data.length := s.length_eq
        obtain ⟨s', f1, f2⟩ := ih d i (j - i) (by omega) hi (by omega) him (by omega)
        have hs : Shuffled (m - i) (m + j) data d := by
          have := s
          have hb : m + j - i + i = m + j := by omega
          rwa [hb] at this
        refine ⟨hs.trans (s'.mono le_rfl (by omega)), ?_, ?_⟩
        · intro k hk1 hk2
          by_cases hk : k < m + j - 2 * i
          · rw [f1 k hk1 (by omega), e3 (k + i) (Or.inr (Or.inl ⟨by omega, by omega⟩))]
          · rw [f2 k (by omega) (by omega), e1 (k - (j - i)) (by omega) (by omega)]
            congr 1; omega
        · intro k hk1 hk2
          rw [s'.frame k (Or.inr (by omega)), e2 k (by omega) (by omega)]
          congr 1; omega

/-- The call `rotate_func(data, a, m, b)` exchanges the adjacent non-empty blocks `[a, m)`
and `[m, b)`. -/
theorem rotate_spec (data : List α) (a m b : Nat) (ham : a < m) (hmb : m < b)
    (hlen : b ≤ data.length) :
    Shuffled a b data (rotate_func data a m b) ∧
      (∀ k, a ≤ k → k < a + (b - m) → elem (rotate_func data a m b) k = elem data (k + (m - a))) ∧
      (∀ k, a + (b - m) ≤ k → k < b →
        elem (rotate_func data a m b) k = elem data (k - (b - m))) := by
  unfold rotate_func
  obtain ⟨s, e1, e2⟩ := rotate_loop_spec m (m - a + (b - m)) data (m - a) (b - m) le_rfl
    (by omega) (by omega) (by omega) (by omega)
  have h1 : m - (m - a) = a := by omega
  have h2 : m + (b - m) = b := by omega
  rw [h1, h2] at s
  rw [h1] at e1 e2
  rw [h2] at e2
  exact ⟨s, e1, e2⟩

/-- First special case of `symMerge_func`: a single entry `data[a]` merged into the
sorted run `[a+1, b)`. -/
theorem symMerge_left_one {less : α → α → Bool} {key : α → κ} (hc : Compat less key)
    (data : List α) (a b : Nat) (hab : a + 1 < b) (hlen : b ≤ data.length)
    (h₂ : SortedOn key data (a + 1) b) :
    Shuffled a b data
        ((List.range' a (searchLoop (fun h => Less less data h a) (b - (a + 1)) (a + 1) b
          - 1 - a)).foldl (fun data k => Swap data k (k + 1)) data) ∧
      SortedOn key
        ((List.range' a (searchLoop (fun h => Less less data h a) (b - (a + 1)) (a + 1) b
          - 1 - a)).foldl (fun data k => Swap data k (k + 1)) data) a b := by
  obtain ⟨i1, i2, hP, hQ⟩ := searchLoop_spec (fun h => Less less data h a)
    (fun c => key (elem data c) ≤ key (elem data a))
    (fun c => key (elem data a) ≤ key (elem data c)) (a + 1) b
    (fun h h1 h2 hcond c c1 c2 => (h₂ c h c1 c2 h2).trans (hc.of_true _ _ hcond))
    (fun h h1 h2 hcond c c1 c2 => (hc.of_false _ _ hcond).trans (h₂ h c h1 c1 c2))
    (b - (a + 1)) (a + 1) b le_rfl le_rfl (by omega) le_rfl
    (by intro c h1 h2; omega) (by intro c h1 h2; omega)
  set i := searchLoop (fun h => Less less data h a) (b - (a + 1)) (a + 1) b with hi
  obtain ⟨s, e1, e2⟩ := bubbleUp_spec a (i - 1 - a) data (by omega)
  set r := (List.range' a (i - 1 - a)).foldl (fun data k => Swap data k (k + 1)) data with hr
  have hai : a + (i - 1 - a) = i - 1 := by omega
  rw [hai] at e1 e2 s
  have hii : i - 1 + 1 = i := by omega
  rw [hii] at s
  have e3 : ∀ k, i ≤ k → elem r k = elem data k := fun k hk => s.frame k (Or.inr hk)
  refine ⟨s.mono le_rfl i2, ?_⟩
  intro x y hx hxy hy
  by_cases hx1 : x < i - 1
  · rw [e1 x hx hx1]
    by_cases hy1 : y < i - 1
    · rw [e1 y (by omega) hy1]
      exact h₂ _ _ (by omega) (by omega) (by omega)
    · by_cases hy2 : y = i - 1
      · rw [hy2, e2]
        exact hP (x + 1) (by omega) (by omega)
      · rw [e3 y (by omega)]
        exact h₂ _ _ (by omega) (by omega) (by omega)
  · by_cases hx2 : x = i - 1
    · rw [hx2, e2]
      by_cases hy2 : y = i - 1
      · rw [hy2, e2]
      · rw [e3 y (by omega)]
        exact hQ y (by omega) hy
    · rw [e3 x (by omega), e3 y (by omega)]
      exact h₂ _ _ (by omega) (by omega) (by omega)

/-- Second special case of `symMerge_func`: a single entry `data[m]` merged into the
sorted run `[a, m)`. -/
theorem symMerge_right_one {less : α → α → Bool} {key : α → κ} (hc : Compat less key)
    (data : List α) (a m : Nat) (ham : a < m) (hlen : m + 1 ≤ data.length)
    (h₁ : SortedOn key data a m) :
    Shuffled a (m + 1) data
        ((List.range' (searchLoop (fun h => !Less less data m h) (m - a) a m + 1)
          (m - searchLoop (fun h => !Less less data m h) (m - a) a m)).reverse.foldl
            (fun data k => Swap data k (k - 1)) data) ∧
      SortedOn key
        ((List.range' (searchLoop (fun h => !Less less data m h) (m - a) a m + 1)
          (m - searchLoop (fun h => !Less less data m h) (m - a) a m)).reverse.foldl
            (fun data k => Swap data k (k - 1)) data) a (m + 1) := by
  obtain ⟨i1, i2, hP, hQ⟩ := searchLoop_spec (fun h => !Less less data m h)
    (fun c => key (elem data c) ≤ key (elem data m))
    (fun c => key (elem data m) ≤ key (elem data c)) a m
    (fun h h1 h2 hcond c c1 c2 =>
      (h₁ c h c1 c2 h2).trans (hc.of_false _ _ (by simpa [Less] using hcond)))
    (fun h h1 h2 hcond c c1 c2 =>
      (hc.of_true _ _ (by simpa [Less] using hcond)).trans (h₁ h c h1 c1 c2))
    (m - a) a m le_rfl le_rfl (by omega) le_rfl
    (by intro c h1 h2; omega) (by intro c h1 h2; omega)
  set i := searchLoop (fun h => !Less less data m h) (m - a) a m with hi
  obtain ⟨s, e1, e2⟩ := bubbleDown_spec i (m - i) data (by omega)
  set r := (List.range' (i + 1) (m - i)).reverse.foldl
    (fun data k => Swap data k (k - 1)) data with hr
  have him : i + (m - i) = m := by omega
  rw [him] at e1 e2 s
  have e3 : ∀ k, k < i → elem r k = elem data k := fun k hk => s.frame k (Or.inl hk)
  refine ⟨s.mono i1 le_rfl, ?_⟩
  intro x y hx hxy hy
  by_cases hx1 : x < i
  · rw [e3 x hx1]
    by_cases hy1 : y < i
    · rw [e3 y hy1]
      exact h₁ _ _ hx hxy (by omega)
    · by_cases hy2 : y = i
      · rw [hy2, e2]
        exact hP x hx hx1
      · rw [e1 y (by omega) (by omega)]
        exact h₁ _ _ hx (by omega) (by omega)
  · by_cases hx2 : x = i
    · rw [hx2, e2]
      by_cases hy2 : y = i
      · rw [hy2, e2]
      · rw [e1 y (by omega) (by omega)]
        exact hQ (y - 1) (by omega) (by omega)
    · rw [e1 x (by omega) (by omega), e1 y (by omega) (by omega)]
      exact h₁ _ _ (by omega) (by omega) (by omega)

/-- The cut point found by the binary search of the general case of
`symMerge_func`: the entries left of the cut in the first run and right of the
matching cut in the second run are separated by key. -/
theorem symMerge_search {less : α → α → Bool} {key : α → κ} (hc : Compat less key)
    (data : List α) (a m b : Nat) (ham : a < m) (hmb : m < b)
    (h₁ : SortedOn key data a m) (h₂ : SortedOn key data m b) :
    let mid := (a + b) / 2
    let n := mid + m
    let start₀ := if m > mid then n - b else a
    let r := if m > mid then mid else m
    let start := searchLoop (fun c => !Less less data (n - 1 - c) c) (r - start₀) start₀ r
    a ≤ start ∧ start ≤ m ∧ start ≤ mid ∧ m ≤ n - start ∧ n - start ≤ b ∧
      (∀ x y, a ≤ x → x < start → n - start ≤ y → y < b →
        key (elem data x) ≤ key (elem data y)) ∧
      (∀ x y, m ≤ x → x < n - start → start ≤ y → y < m →
        key (elem data x) ≤ key (elem data y)) := by
  intro mid n start₀ r start
  have hmid1 : a ≤ mid := by omega
  have hmid2 : mid < b := by omega
  have hs0 : a ≤ start₀ := by
    simp only [start₀]; split_ifs <;> omega
  have hr : r ≤ m ∧ r ≤ mid := by
    simp only [r]; split_ifs <;> omega
  have hs0r : start₀ ≤ r := by
    simp only [start₀, r]; split_ifs <;> omega
  have hs0n : n ≤ start₀ + b := by
    simp only [start₀]; split_ifs <;> omega
  obtain ⟨i1, i2, hP, hQ⟩ := searchLoop_spec (fun c => !Less less data (n - 1 - c) c)
    (fun c => key (elem data c) ≤ key (elem data (n - 1 - c)))
    (fun c => key (elem data (n - 1 - c)) ≤ key (elem data c)) start₀ r
    (fun h h1 h2 hcond c c1 c2 =>
      ((h₁ c h (by omega) c2 (by omega)).trans
        (hc.of_false _ _ (by simpa [Less] using hcond))).trans
        (h₂ (n - 1 - h) (n - 1 - c) (by omega) (by omega) (by omega)))
    (fun h h1 h2 hcond c c1 c2 =>
      ((h₂ (n - 1 - c) (n - 1 - h) (by omega) (by omega) (by omega)).trans
        (hc.of_true _ _ (by simpa [Less] using hcond))).trans
        (h₁ h c (by omega) c1 (by omega)))
    (r - start₀) start₀ r le_rfl le_rfl hs0r le_rfl
    (by intro c h1 h2; omega) (by intro c h1 h2; omega)
  have hstart : searchLoop (fun c => !Less less data (n - 1 - c) c) (r - start₀) start₀ r
      = start := rfl
  rw [hstart] at i1 i2 hP hQ
  refine ⟨by omega, by omega, by omega, by omega, by omega, ?_, ?_⟩
  · intro x y hx hxs hy hyb
    have h0 : start₀ < start := by
      by_contra hcon
      have hse : start = start₀ := by omega
      have : start₀ = a ∨ start₀ = n - b := by
        simp only [start₀]; split_ifs <;> simp
      omega
    have hp := hP (start - 1) (by omega) (by omega)
    have he : n - 1 - (start - 1) = n - start := by omega
    rw [he] at hp
    exact ((h₁ x (start - 1) hx (by omega) (by omega)).trans hp).trans
      (h₂ (n - start) y (by omega) hy hyb)
  · intro x y hx hxe hy hym
    have h0 : start < r := by
      by_contra hcon
      have hse : start = r := by omega
      have : (r = mid ∧ m > mid) ∨ (r = m ∧ m ≤ mid) := by
        simp only [r]; split_ifs <;> omega
      omega
    have hq := hQ start le_rfl h0
    exact ((h₂ x (n - 1 - start) hx (by omega) (by omega)).trans hq).trans
      (h₁ start y (by omega) hy hym)

/-- The state after the rotation step of `symMerge_func`: four sorted runs, the
first two filling `[a, mid)`, the last two `[mid, b)`, and the halves separated. -/
theorem symMerge_cut {key : α → κ} (data : List α) (a m b mid start e : Nat)
    (hlen : b ≤ data.length) (hsa : a ≤ start) (hsm : start ≤ m) (hme : m ≤ e) (heb : e ≤ b)
    (hsum : start + e = mid + m)
    (h₁ : SortedOn key data a m) (h₂ : SortedOn key data m b)
    (hx₁ : ∀ x y, a ≤ x → x < start → e ≤ y → y < b → key (elem data x) ≤ key (elem data y))
    (hx₂ : ∀ x y, m ≤ x → x < e → start ≤ y → y < m → key (elem data x) ≤ key (elem data y)) :
    let data₁ := if start < m ∧ m < e then rotate_func data start m e else data
    Shuffled a b data data₁ ∧ SortedOn key data₁ a start ∧ SortedOn key data₁ start mid ∧
      SortedOn key data₁ mid e ∧ SortedOn key data₁ e b ∧
      (∀ x y, a ≤ x → x < mid → mid ≤ y → y < b →
        key (elem data₁ x) ≤ key (elem data₁ y)) := by
  intro data₁
  have hspec : Shuffled start e data data₁ ∧
      (∀ k, start ≤ k → k < mid → elem data₁ k = elem data (k + (m - start))) ∧
      (∀ k, mid ≤ k → k < e → elem data₁ k = elem data (k - (e - m))) := by
    by_cases hrot : start < m ∧ m < e
    · have hd : data₁ = rotate_func data start m e := if_pos hrot
      rw [hd]
      obtain ⟨s, e1, e2⟩ := rotate_spec data start m e hrot.1 hrot.2 (by omega)
      exact ⟨s, fun k h1 h2 => e1 k h1 (by omega), fun k h1 h2 => e2 k (by omega) h2⟩
    · have hd : data₁ = data := if_neg hrot
      rw [hd]
      refine ⟨Shuffled.refl _ _ _, ?_, ?_⟩
      · intro k h1 h2
        congr 1; omega
      · intro k h1 h2
        congr 1; omega
  obtain ⟨s, e1, e2⟩ := hspec
  have e0 : ∀ k, k < start ∨ e ≤ k → elem data₁ k = elem data k := s.frame
  refine ⟨s.mono hsa heb, ?_, ?_, ?_, ?_, ?_⟩
  · exact (h₁.sub le_rfl hsm).congr (fun k _ h2 => e0 k (Or.inl h2))
  · intro x y hx hxy hy
    rw [e1 x hx (by omega), e1 y (by omega) hy]
    exact h₂ _ _ (by omega) (by omega) (by omega)
  · intro x y hx hxy hy
    rw [e2 x hx (by omega), e2 y (by omega) hy]
    exact h₁ _ _ (by omega) (by omega) (by omega)
  · exact (h₂.sub hme le_rfl).congr (fun k h1 _ => e0 k (Or.inr h1))
  · intro x y hx hxm hy hyb
    by_cases hxs : x < start
    · rw [e0 x (Or.inl hxs)]
      by_cases hye : y < e
      · rw [e2 y hy hye]
        exact h₁ _ _ hx (by omega) (by omega)
      · rw [e0 y (Or.inr (by omega))]
        exact hx₁ x y hx hxs (by omega) hyb
    · rw [e1 x (by omega) hxm]
      by_cases hye : y < e
      · rw [e2 y hy hye]
        exact hx₂ _ _ (by omega) (by omega) (by omega) (by omega)
      · rw [e0 y (Or.inr (by omega))]
        exact h₂ _ _ (by omega) (by omega) hyb

/-- The call `symMerge_func(data, a, m, b)` merges two adjacent sorted runs into one, touching nothing
outside `[a, b)`. -/
theorem symMerge_go_spec {less : α → α → Bool} {key : α → κ} (hc : Compat less key) :
    ∀ (fuel : Nat) (data : List α) (a m b : Nat), b - a ≤ fuel → a < m → m < b →
      b ≤ data.length → SortedOn key data a m → SortedOn key data m b →
      Shuffled a b data (symMerge_func.go less fuel data a m b) ∧
        SortedOn key (symMerge_func.go less fuel data a m b) a b := by
  intro fuel
  induction fuel with
  | zero => intro data a m b hf ham hmb; omega
  | succ fuel ih =>
    intro data a m b hf ham hmb hlen h₁ h₂
    unfold symMerge_func.go
    by_cases hl : m - a = 1
    · rw [if_pos hl]
      have hm : m = a + 1 := by omega
      subst hm
      exact symMerge_left_one hc data a b hmb hlen h₂
    · rw [if_neg hl]
      by_cases hr : b - m = 1
      · rw [if_pos hr]
        have hb : b = m + 1 := by omega
        subst hb
        exact symMerge_right_one hc data a m ham hlen h₁
      · rw [if_neg hr]
        obtain ⟨g1, g2, g3, g4, g5, gx1, gx2⟩ := symMerge_search hc data a m b ham hmb h₁ h₂
        simp only []
        set mid := (a + b) / 2 with hmid
        set n := mid + m with hn
        set start := searchLoop (fun c => !Less less data (n - 1 - c) c)
          ((if m > mid then mid else m) - (if m > mid then n - b else a))
          (if m > mid then n - b else a) (if m > mid then mid else m) with hstart
        obtain ⟨c1, c2, c3, c4, c5, c6⟩ := symMerge_cut data a m b mid start
          (n - start) hlen g1 g2 g4 g5 (by omega) h₁ h₂ gx1 gx2
        set data₁ := if start < m ∧ m < n - start then rotate_func data start m (n - start)
          else data with hdata₁
        have hl1 : data₁.length = data.length := c1.length_eq
        have hmidb : mid < b := by omega
        have hamid : a < mid := by omega
        -- left half
        have left : Shuffled a mid data₁
            (if a < start ∧ start < mid then symMerge_func.go less fuel data₁ a start mid
              else data₁) ∧
            SortedOn key (if a < start ∧ start < mid then
              symMerge_func.go less fuel data₁ a start mid else data₁) a mid := by
          by_cases hcond : a < start ∧ start < mid
          · rw [if_pos hcond]
            exact ih data₁ a start mid (by omega) hcond.1 hcond.2 (by omega) c2 c3
          · rw [if_neg hcond]
            refine ⟨Shuffled.refl _ _ _, ?_⟩
            by_cases hs : start = a
            · rw [hs] at c3; exact c3
            · have : start = mid := by omega
              rw [this] at c2; exact c2
        set data₂ := if a < start ∧ start < mid then
          symMerge_func.go less fuel data₁ a start mid else data₁ with hdata₂
        obtain ⟨l1, l2⟩ := left
        have hl2 : data₂.length = data.length := l1.length_eq.trans hl1
        have c4' : SortedOn key data₂ mid (n - start) :=
          c4.congr (fun k h1 _ => l1.frame k (Or.inr h1))
        have c5' : SortedOn key data₂ (n - start) b :=
          c5.congr (fun k h1 _ => l1.frame k (Or.inr (by omega)))
        have right : Shuffled mid b data₂
            (if mid < n - start ∧ n - start < b then
              symMerge_func.go less fuel data₂ mid (n - start) b else data₂) ∧
            SortedOn key (if mid < n - start ∧ n - start < b then
              symMerge_func.go less fuel data₂ mid (n - start) b else data₂) mid b := by
          by_cases hcond : mid < n - start ∧ n - start < b
          · rw [if_pos hcond]
            exact ih data₂ mid (n - start) b (by omega) hcond.1 hcond.2 (by omega) c4' c5'
          · rw [if_neg hcond]
            refine ⟨Shuffled.refl _ _ _, ?_⟩
            by_cases hs : n - start = mid
            · rw [hs] at c5'; exact c5'
            · have : n - start = b := by omega
              rw [this] at c4'; exact c4'
        set data₃ := if mid < n - start ∧ n - start < b then
          symMerge_func.go less fuel data₂ mid (n - start) b else data₂ with hdata₃
        obtain ⟨r1, r2⟩ := right
        refine ⟨(c1.trans (l1.mono le_rfl (by omega))).trans (r1.mono (by omega) le_rfl), ?_⟩
        refine SortedOn.glue (l2.congr (fun k _ h2 => r1.frame k (Or.inl h2))) r2 ?_
        intro x y hx hxm hy hyb
        rw [r1.frame x (Or.inl hxm)]
        obtain ⟨x', hx1, hx2, hxe⟩ := l1.inside x hx hxm
        obtain ⟨y', hy1, hy2, hye⟩ := r1.inside y hy hyb
        rw [hxe, hye, l1.frame y' (Or.inr hy1)]
        exact c6 x' y' hx1 hx2 hy1 hy2

theorem symMerge_spec {less : α → α → Bool} {key : α → κ} (hc : Compat less key)
    (data : List α) (a m b : Nat) (ham : a < m) (hmb : m < b) (hlen : b ≤ data.length)
    (h₁ : SortedOn key data a m) (h₂ : SortedOn key data m b) :
    Shuffled a b data (symMerge_func less data a m b) ∧
      SortedOn key (symMerge_func less data a m b) a b :=
  symMerge_go_spec hc (b - a) data a m b le_rfl ham hmb hlen h₁ h₂

theorem dvd_gap {d x a : Nat} (hx : d ∣ x) (ha : d ∣ a) (h : x < a) : x + d ≤ a := by
  obtain ⟨p, rfl⟩ := hx
  obtain ⟨q, rfl⟩ := ha
  have hpq : p < q := lt_of_mul_lt_mul_left h (Nat.zero_le d)
  calc d * p + d = d * (p + 1) := by ring
    _ ≤ d * q := Nat.mul_le_mul_left d hpq

theorem insertBlocks_spec {less : α → α → Bool} {key : α → κ} (hc : Compat less key)
    (bs n : Nat) (hbs : 0 < bs) :
    ∀ (fuel : Nat) (data : List α) (a : Nat), n < fuel + a → bs ∣ a → n ≤ data.length →
      (∀ x, bs ∣ x → x < a → SortedOn key data x (min (x + bs) n)) →
      Shuffled 0 n data (stable_func.insertBlocks less bs n fuel data a (a + bs)) ∧
        BlocksSorted key (stable_func.insertBlocks less bs n fuel data a (a + bs)) bs n := by
  intro fuel
  induction fuel with
  | zero =>
    intro data a hf _ _ inv
    unfold stable_func.insertBlocks
    refine ⟨Shuffled.refl _ _ _, ?_⟩
    intro x hx
    by_cases hxa : x < a
    · exact inv x hx hxa
    · exact SortedOn.of_le (by omega)
  | succ fuel ih =>
    intro data a hf ha hlen inv
    unfold stable_func.insertBlocks
    by_cases hb : a + bs ≤ n
    · rw [if_pos hb]
      obtain ⟨s, hs⟩ := insertionSort_spec hc data a (a + bs) (by omega)
      set d := insertionSort_func less data a (a + bs) with hd
      obtain ⟨r1, r2⟩ := ih d (a + bs) (by omega) (Dvd.dvd.add ha (dvd_refl bs))
        (by rw [s.length_eq]; exact hlen) (by
          intro x hx hxa
          by_cases hxa' : x < a
          · have := dvd_gap hx ha hxa'
            exact (inv x hx hxa').congr (fun k h1 h2 => s.frame k (Or.inl (by omega)))
          · have hxe : x = a := by
              by_contra hne
              have := dvd_gap ha hx (by omega)
              omega
            subst hxe
            exact hs.sub le_rfl (by omega))
      exact ⟨(s.mono (Nat.zero_le _) hb).trans r1, r2⟩
    · rw [if_neg hb]
      obtain ⟨s, hs⟩ := insertionSort_spec hc data a n hlen
      refine ⟨s.mono (Nat.zero_le _) le_rfl, ?_⟩
      intro x hx
      by_cases hxa' : x < a
      · have := dvd_gap hx ha hxa'
        exact (inv x hx hxa').congr (fun k h1 h2 => s.frame k (Or.inl (by omega)))
      · by_cases hxe : x = a
        · subst hxe
          exact hs.sub le_rfl (by omega)
        · have := dvd_gap ha hx (by omega)
          exact SortedOn.of_le (by omega)

theorem mergePass_spec {less : α → α → Bool} {key : α → κ} (hc : Compat less key)
    (bs n : Nat) (hbs : 0 < bs) :
    ∀ (fuel : Nat) (data : List α) (a : Nat), n < fuel + a → 2 * bs ∣ a → n ≤ data.length →
      (∀ x, 2 * bs ∣ x → x < a → SortedOn key data x (min (x + 2 * bs) n)) →
      (∀ x, bs ∣ x → a ≤ x → SortedOn key data x (min (x + bs) n)) →
      Shuffled 0 n data (stable_func.mergePass less bs n fuel data a (a + 2 * bs)) ∧
        BlocksSorted key (stable_func.mergePass less bs n fuel data a (a + 2 * bs))
          (2 * bs) n := by
  intro fuel
  induction fuel with
  | zero =>
    intro data a hf _ _ inv1 _
    unfold stable_func.mergePass
    refine ⟨Shuffled.refl _ _ _, ?_⟩
    intro x hx
    by_cases hxa : x < a
    · exact inv1 x hx hxa
    · exact SortedOn.of_le (by omega)
  | succ fuel ih =>
    intro data a hf ha hlen inv1 inv2
    have ha1 : bs ∣ a := dvd_trans (Dvd.intro_left 2 rfl) ha
    have ha2 : bs ∣ a + bs := Dvd.dvd.add ha1 (dvd_refl bs)
    unfold stable_func.mergePass
    by_cases hb : a + 2 * bs ≤ n
    · rw [if_pos hb]
      obtain ⟨s, hs⟩ := symMerge_spec hc data a (a + bs) (a + 2 * bs)
        (by omega) (by omega) (by omega)
        ((inv2 a ha1 le_rfl).sub le_rfl (by omega))
        ((inv2 (a + bs) ha2 (by omega)).sub le_rfl (by omega))
      set d := symMerge_func less data a (a + bs) (a + 2 * bs) with hd
      obtain ⟨r1, r2⟩ := ih d (a + 2 * bs) (by omega) (Dvd.dvd.add ha (dvd_refl _))
        (by rw [s.length_eq]; exact hlen)
        (by
          intro x hx hxa
          by_cases hxa' : x < a
          · have := dvd_gap hx ha hxa'
            exact (inv1 x hx hxa').congr (fun k h1 h2 => s.frame k (Or.inl (by omega)))
          · have hxe : x = a := by
              by_contra hne
              have := dvd_gap ha hx (by omega)
              omega
            subst hxe
            exact hs.sub le_rfl (by omega))
        (by
          intro x hx hxa
          exact (inv2 x hx (by omega)).congr (fun k h1 h2 => s.frame k (Or.inr (by omega))))
      exact ⟨(s.mono (Nat.zero_le _) hb).trans r1, r2⟩
    · rw [if_neg hb]
      by_cases hm : a + bs < n
      · rw [if_pos hm]
        obtain ⟨s, hs⟩ := symMerge_spec hc data a (a + bs) n
          (by omega) hm hlen
          ((inv2 a ha1 le_rfl).sub le_rfl (by omega))
          ((inv2 (a + bs) ha2 (by omega)).sub le_rfl (by omega))
        refine ⟨s.mono (Nat.zero_le _) le_rfl, ?_⟩
        intro x hx
        by_cases hxa' : x < a
        · have := dvd_gap hx ha hxa'
          exact (inv1 x hx hxa').congr (fun k h1 h2 => s.frame k (Or.inl (by omega)))
        · by_cases hxe : x = a
          · subst hxe
            exact hs.sub le_rfl (by omega)
          · have := dvd_gap ha hx (by omega)
            exact SortedOn.of_le (by omega)
      · rw [if_neg hm]
        refine ⟨Shuffled.refl _ _ _, ?_⟩
        intro x hx
        by_cases hxa' : x < a
        · exact inv1 x hx hxa'
        · by_cases hxe : x = a
          · subst hxe
            exact (inv2 x ha1 le_rfl).sub le_rfl (by omega)
          · have := dvd_gap ha hx (by omega)
            exact SortedOn.of_le (by omega)

theorem mergeLoop_spec {less : α → α → Bool} {key : α → κ} (hc : Compat less key) (n : Nat) :
    ∀ (fuel : Nat) (data : List α) (bs : Nat), n ≤ fuel + bs → 0 < bs → n ≤ data.length →
      BlocksSorted key data bs n →
      Shuffled 0 n data (stable_func.mergeLoop less n fuel data bs) ∧
        SortedOn key (stable_func.mergeLoop less n fuel data bs) 0 n := by
  intro fuel
  induction fuel with
  | zero =>
    intro data bs hf _ _ hblocks
    unfold stable_func.mergeLoop
    exact ⟨Shuffled.refl _ _ _, (hblocks 0 (dvd_zero bs)).sub le_rfl (by omega)⟩
  | succ fuel ih =>
    intro data bs hf hbs hlen hblocks
    unfold stable_func.mergeLoop
    by_cases hlt : bs < n
    · rw [if_pos hlt]
      obtain ⟨s, hs⟩ := mergePass_spec hc bs n hbs (n + 1) data 0 (by omega)
        (dvd_zero _) hlen (by intro x _ hx; omega) (fun x hx _ => hblocks x hx)
      rw [Nat.zero_add] at s hs
      set d := stable_func.mergePass less bs n (n + 1) data 0 (2 * bs) with hd
      have hmul : bs * 2 = 2 * bs := Nat.mul_comm _ _
      rw [hmul]
      obtain ⟨r1, r2⟩ := ih d (2 * bs) (by omega) (by omega)
        (by rw [s.length_eq]; exact hlen) hs
      exact ⟨s.trans r1, r2⟩
    · rw [if_neg hlt]
      exact ⟨Shuffled.refl _ _ _, (hblocks 0 (dvd_zero bs)).sub le_rfl (by omega)⟩

theorem stable_spec {less : α → α → Bool} {key : α → κ} (hc : Compat less key)
    (data : List α) (n : Nat) (hlen : n ≤ data.length) :
    Shuffled 0 n data (stable_func less data n) ∧
      SortedOn key (stable_func less data n) 0 n := by
  unfold stable_func
  obtain ⟨s, hs⟩ := insertBlocks_spec hc 20 n (by omega) (n + 1) data 0
    (by omega) (dvd_zero _) hlen (by intro x _ hx; omega)
  rw [Nat.zero_add] at s hs
  obtain ⟨r1, r2⟩ := mergeLoop_spec hc n n
    (stable_func.insertBlocks less 20 n (n + 1) data 0 20) 20 (by omega) (by omega)
    (by rw [s.length_eq]; exact hlen) hs
  exact ⟨s.trans r1, r2⟩

/-- Go's `sort.SliceStable`, run with any comparator that never contradicts the
order of the keys, returns a rearrangement of the slice whose keys ascend. -/
theorem SliceStable_spec {less : α → α → Bool} {key : α → κ} (hc : Compat less key)
    (x : List α) :
    (SliceStable x less).Perm x ∧
      (SliceStable x less).Pairwise (fun u v => key u ≤ key v) := by
  obtain ⟨s, hs⟩ := stable_spec hc x x.length le_rfl
  refine ⟨s.perm, ?_⟩
  unfold SliceStable
  rw [List.pairwise_iff_getElem]
  intro i j hi hj hij
  have := hs i j (Nat.zero_le _) (le_of_lt hij) (by rw [← s.length_eq]; exact hj)
  rwa [elem_eq_getElem _ hi, elem_eq_getElem _ hj] at this

end GoSort

/-! ## Results on the handler

First the loops of `getApp` and `getApplicationByNs` in closed form, then the
claims, each followed by its instance at concrete collaborators. -/

theorem foldl_append_singleton {β γ : Type} (f : β → γ) (l : List β) (init : List γ) :
    l.foldl (fun acc x => acc ++ [f x]) init = init ++ l.map f := by
  induction l generalizing init with
  | nil => simp
  | cons x t ih => simp [ih]

theorem foldl_append_option {β γ : Type} (f : β → Option γ) (l : List β) (init : List γ) :
    l.foldl (fun acc x => match f x with
      | some y => acc ++ [y]
      | none => acc) init = init ++ l.filterMap f := by
  induction l generalizing init with
  | nil => simp
  | cons x t ih =>
    simp only [List.foldl_cons, List.filterMap_cons]
    cases h : f x with
    | none => simp [ih]
    | some y => simp [ih]

theorem getApp.items_eq (profileMap : String → Option SvcProfileV2) (l : List Object) :
    getApp.items profileMap l = l.map (fun v => { Metadata := v, Description := profileMap v.Name }) := by
  unfold getApp.items
  rw [foldl_append_singleton]
  simp

theorem getApp.resources_eq (profileMap : String → Option SvcProfileV2) (ns : String)
    (search : Search) (types : List String) :
    getApp.resources profileMap ns search types =
      (types.filter (querySucceeds search ns)).map (resourceEntry profileMap ns search) := by
  unfold getApp.resources
  have h : ∀ (init : List Resource),
      types.foldl
        (fun resources resource =>
          let r := search.GetByResourceAndNamespace resource "" ns
          if r.2 = none then
            resources ++ [{ Name := resource, List := getApp.items profileMap r.1 }]
          else resources) init =
        init ++ (types.filter (querySucceeds search ns)).map (resourceEntry profileMap ns search) := by
    induction types with
    | nil => intro init; simp
    | cons x t ih =>
      intro init
      simp only [List.foldl_cons]
      by_cases hx : (search.GetByResourceAndNamespace x "" ns).2 = none
      · rw [if_pos hx, ih]
        have : querySucceeds search ns x = true := by simp [querySucceeds, hx]
        simp [List.filter_cons, this, resourceEntry, getApp.items_eq]
      · rw [if_neg hx, ih]
        have : querySucceeds search ns x = false := by simp [querySucceeds, hx]
        simp [List.filter_cons, this]
  simpa using h []

theorem getApp_groups_eq (w : Collaborators) (rangeOrder : List (String × List String))
    (ns appName : String) (search : Search) :
    (getApp w rangeOrder ns appName search).Groups =
      rangeOrder.map (fun entry =>
        { GroupName := entry.1
          List := (entry.2.filter (querySucceeds search ns)).map
            (resourceEntry (getServiceProfile w ns appName) ns search) }) := by
  unfold getApp
  simp only [foldl_append_singleton, List.nil_append, getApp.resources_eq]

theorem getApplicationByNs_eq (w : Collaborators) (rangeOrder : Nat → List (String × List String))
    (ns kubeconfig : String) (search : Search) :
    (getApplicationByNs w rangeOrder ns kubeconfig search).Application =
      ((w.GetApplicationMetas ns kubeconfig).getD []).enum.filterMap
        (fun im => im.2.map (fun applicationMeta =>
          getApp w (rangeOrder im.1) ns applicationMeta.Application search)) := by
  unfold getApplicationByNs
  simp only []
  have h := foldl_append_option
    (fun im : Nat × Option ApplicationMeta => im.2.map (fun applicationMeta =>
      getApp w (rangeOrder im.1) ns applicationMeta.Application search))
    ((w.GetApplicationMetas ns kubeconfig).getD []).enum []
  rw [List.nil_append] at h
  rw [← h]
  congr 1
  funext apps im
  cases im.2 <;> rfl

theorem taxonomy_names :
    groupToTypeMap.map (fun entry => entry.1) =
      ["Workloads", "Networks", "Configurations", "Storages"] := rfl

/-- C1. For every namespace, application name and cache behaviour, `getApp` returns
exactly four groups, named Workloads, Networks, Configurations and Storages, each
once; and when every per-kind query succeeds, the groups paired with the names of
their resources are exactly the entries of the fixed taxonomy. -/
theorem getApp_groups_complete (w : Collaborators) (rangeOrder : List (String × List String))
    (ns appName : String) (search : Search) (hord : IsRangeOrder rangeOrder) :
    (getApp w rangeOrder ns appName search).Groups.length = 4 ∧
      ((getApp w rangeOrder ns appName search).Groups.map (fun g => g.GroupName)).Perm
        ["Workloads", "Networks", "Configurations", "Storages"] ∧
      ((∀ entry ∈ groupToTypeMap, ∀ kind ∈ entry.2,
          (search.GetByResourceAndNamespace kind "" ns).2 = none) →
        ((getApp w rangeOrder ns appName search).Groups.map
          (fun g => (g.GroupName, g.List.map (fun r => r.Name)))).Perm groupToTypeMap) := by
  rw [getApp_groups_eq]
  refine ⟨?_, ?_, ?_⟩
  · rw [List.length_map, List.Perm.length_eq hord]
    rfl
  · rw [List.map_map, ← taxonomy_names]
    exact List.Perm.map _ hord
  · intro hall
    rw [List.map_map]
    have hid : ∀ entry ∈ rangeOrder,
        ((fun g : Group => (g.GroupName, g.List.map (fun r => r.Name))) ∘
          (fun entry : String × List String =>
            ({ GroupName := entry.1
               List := (entry.2.filter (querySucceeds search ns)).map
                (resourceEntry (getServiceProfile w ns appName) ns search) } : Group))) entry
          = entry := by
      intro entry he
      have hmem : entry ∈ groupToTypeMap := (List.Perm.mem_iff hord).1 he
      have hf : entry.2.filter (querySucceeds search ns) = entry.2 := by
        rw [List.filter_eq_self]
        intro kind hk
        simp [querySucceeds, hall entry hmem kind hk]
      simp only [Function.comp, hf, List.map_map]
      have : (entry.2.map ((fun r : Resource => r.Name) ∘
          resourceEntry (getServiceProfile w ns appName) ns search)) = entry.2 := by
        conv_rhs => rw [← List.map_id entry.2]
        apply List.map_congr_left
        intro a _
        rfl
      rw [this]
    rw [List.map_congr_left hid]
    simpa using hord

/-- C1 at a concrete cache in which every query succeeds, with the map visited in
reverse order: four groups, the four names, and the taxonomy's kinds in each. -/
theorem getApp_groups_complete_witness :
    IsRangeOrder groupToTypeMap.reverse ∧
      (∀ entry ∈ groupToTypeMap, ∀ kind ∈ entry.2,
        (sampleSearchHealthy.GetByResourceAndNamespace kind "" "ns1").2 = none) ∧
      (getApp emptyWorld groupToTypeMap.reverse "ns1" "web" sampleSearchHealthy).Groups.length
        = 4 ∧
      ((getApp emptyWorld groupToTypeMap.reverse "ns1" "web" sampleSearchHealthy).Groups.map
        (fun g => g.GroupName)).Perm ["Workloads", "Networks", "Configurations", "Storages"] ∧
      ((getApp emptyWorld groupToTypeMap.reverse "ns1" "web" sampleSearchHealthy).Groups.map
        (fun g => (g.GroupName, g.List.map (fun r => r.Name)))).Perm groupToTypeMap :=
  ⟨List.reverse_perm _, by decide,
    (getApp_groups_complete emptyWorld groupToTypeMap.reverse "ns1" "web" sampleSearchHealthy
      (List.reverse_perm _)).1,
    (getApp_groups_complete emptyWorld groupToTypeMap.reverse "ns1" "web" sampleSearchHealthy
      (List.reverse_perm _)).2.1,
    (getApp_groups_complete emptyWorld groupToTypeMap.reverse "ns1" "web" sampleSearchHealthy
      (List.reverse_perm _)).2.2 (by decide)⟩

theorem taxonomy_kinds_nodup : ∀ entry ∈ groupToTypeMap, entry.2.Nodup := by decide

theorem resourceEntry_name (profileMap : String → Option SvcProfileV2) (ns : String)
    (search : Search) (kind : String) : (resourceEntry profileMap ns search kind).Name = kind :=
  rfl

/-- Every entry of the taxonomy has its group in the App, holding one `Resource`
per kind of the entry whose query succeeded, in the order of the entry. -/
theorem getApp_group_of_entry (w : Collaborators) (rangeOrder : List (String × List String))
    (ns appName : String) (search : Search) (hord : IsRangeOrder rangeOrder)
    (entry : String × List String) (he : entry ∈ groupToTypeMap) :
    ({ GroupName := entry.1
       List := (entry.2.filter (querySucceeds search ns)).map
        (resourceEntry (getServiceProfile w ns appName) ns search) } : Group) ∈
      (getApp w rangeOrder ns appName search).Groups := by
  rw [getApp_groups_eq]
  exact List.mem_map.2 ⟨entry, (List.Perm.mem_iff hord).2 he, rfl⟩

/-- C2. Whatever set of per-kind queries fails, `getApp` returns four groups, and
for every entry of the taxonomy the App holds the group of that name, whose
Resource list is exactly one entry for each kind of that group whose query
succeeded, in the taxonomy's order, and no entry for a kind whose query failed;
the entry of a succeeding kind is the kind's name with one Item per returned
object, in returned order, each with the profile looked up by the object's name,
and it is identical to the entry of that kind in a run in which no query fails.
Conversely the App holds nothing else: its groups are those of the all-success
run with the failed kinds removed. -/
theorem getApp_failure_isolation (w : Collaborators) (rangeOrder : List (String × List String))
    (ns appName : String) (search healthy : Search) (hord : IsRangeOrder rangeOrder)
    (hall : ∀ entry ∈ groupToTypeMap, ∀ kind ∈ entry.2,
      (healthy.GetByResourceAndNamespace kind "" ns).2 = none)
    (hagree : ∀ entry ∈ groupToTypeMap, ∀ kind ∈ entry.2,
      (search.GetByResourceAndNamespace kind "" ns).2 = none →
        (healthy.GetByResourceAndNamespace kind "" ns).1 =
          (search.GetByResourceAndNamespace kind "" ns).1) :
    (getApp w rangeOrder ns appName search).Groups.length = 4 ∧
      (∀ entry ∈ groupToTypeMap,
        ∃ g ∈ (getApp w rangeOrder ns appName search).Groups,
          ∃ h ∈ (getApp w rangeOrder ns appName healthy).Groups,
            g.GroupName = entry.1 ∧ h.GroupName = entry.1 ∧
            g.List.map (fun r => r.Name) = entry.2.filter (querySucceeds search ns) ∧
            (g.List.map (fun r => r.Name)).Nodup ∧
            h.List.map (fun r => r.Name) = entry.2 ∧
            (∀ kind ∈ entry.2, querySucceeds search ns kind = true →
              (∃ r ∈ g.List, r.Name = kind ∧ r ∈ h.List ∧
                r.List = (search.GetByResourceAndNamespace kind "" ns).1.map
                  (fun v => { Metadata := v
                              Description := getServiceProfile w ns appName v.Name }))) ∧
            (∀ kind ∈ entry.2, querySucceeds search ns kind = false →
              ∀ r ∈ g.List, r.Name ≠ kind)) ∧
      (∀ g ∈ (getApp w rangeOrder ns appName search).Groups,
        ∃ types, (g.GroupName, types) ∈ groupToTypeMap ∧
          g.List.map (fun r => r.Name) = types.filter (querySucceeds search ns)) ∧
      (∀ g ∈ (getApp w rangeOrder ns appName search).Groups, ∀ r ∈ g.List,
        querySucceeds search ns r.Name = true ∧
        r.List = (search.GetByResourceAndNamespace r.Name "" ns).1.map
          (fun v => { Metadata := v, Description := getServiceProfile w ns appName v.Name })) ∧
      (getApp w rangeOrder ns appName search).Groups =
        (getApp w rangeOrder ns appName healthy).Groups.map
          (fun g => { GroupName := g.GroupName
                      List := g.List.filter (fun r => querySucceeds search ns r.Name) }) := by
  have hnames : ∀ (s : Search) (l : List String),
      (l.map (resourceEntry (getServiceProfile w ns appName) ns s)).map (fun r => r.Name) = l := by
    intro s l
    rw [List.map_map]
    conv_rhs => rw [← List.map_id l]
    apply List.map_congr_left
    intro a _
    rfl
  have hhealthy : ∀ entry ∈ groupToTypeMap,
      entry.2.filter (querySucceeds healthy ns) = entry.2 := by
    intro entry hmem
    rw [List.filter_eq_self]
    intro kind hk
    simp [querySucceeds, hall entry hmem kind hk]
  have hsame : ∀ entry ∈ groupToTypeMap, ∀ kind ∈ entry.2, querySucceeds search ns kind = true →
      resourceEntry (getServiceProfile w ns appName) ns search kind =
        resourceEntry (getServiceProfile w ns appName) ns healthy kind := by
    intro entry hmem kind hk hok
    have hok' : (search.GetByResourceAndNamespace kind "" ns).2 = none := by
      simpa [querySucceeds] using hok
    simp only [resourceEntry, hagree entry hmem kind hk hok']
  refine ⟨?_, ?_, ?_, ?_, ?_⟩
  · rw [getApp_groups_eq, List.length_map, List.Perm.length_eq hord]
    rfl
  · intro entry hmem
    refine ⟨_, getApp_group_of_entry w rangeOrder ns appName search hord entry hmem,
      _, getApp_group_of_entry w rangeOrder ns appName healthy hord entry hmem,
      rfl, rfl, hnames search _, ?_, ?_, ?_, ?_⟩
    · rw [hnames search]
      exact (taxonomy_kinds_nodup entry hmem).filter _
    · rw [hnames healthy, hhealthy entry hmem]
    · intro kind hk hok
      refine ⟨resourceEntry (getServiceProfile w ns appName) ns search kind,
        List.mem_map.2 ⟨kind, List.mem_filter.2 ⟨hk, hok⟩, rfl⟩, rfl, ?_, rfl⟩
      rw [hsame entry hmem kind hk hok]
      exact List.mem_map.2 ⟨kind, by rw [hhealthy entry hmem]; exact hk, rfl⟩
    · intro kind _ hfail r hr hname
      obtain ⟨k, hk, rfl⟩ := List.mem_map.1 hr
      have hk2 : querySucceeds search ns k = true := (List.mem_filter.1 hk).2
      have : k = kind := hname
      rw [this, hfail] at hk2
      exact Bool.noConfusion hk2
  · intro g hg
    rw [getApp_groups_eq] at hg
    obtain ⟨entry, he, rfl⟩ := List.mem_map.1 hg
    exact ⟨entry.2, (List.Perm.mem_iff hord).1 he, hnames search _⟩
  · intro g hg r hr
    rw [getApp_groups_eq] at hg
    obtain ⟨entry, he, rfl⟩ := List.mem_map.1 hg
    obtain ⟨kind, hk, rfl⟩ := List.mem_map.1 hr
    exact ⟨(List.mem_filter.1 hk).2, rfl⟩
  · rw [getApp_groups_eq, getApp_groups_eq, List.map_map]
    apply List.map_congr_left
    intro entry he
    have hmem : entry ∈ groupToTypeMap := (List.Perm.mem_iff hord).1 he
    simp only [Function.comp, hhealthy entry hmem, List.filter_map]
    congr 1
    have hcomp : ((fun r : Resource => querySucceeds search ns r.Name) ∘
        resourceEntry (getServiceProfile w ns appName) ns healthy) =
        querySucceeds search ns := by
      funext kind
      rfl
    rw [hcomp]
    apply List.map_congr_left
    intro kind hk
    obtain ⟨hk1, hk2⟩ := List.mem_filter.1 hk
    exact hsame entry hmem kind hk1 hk2

/-- C2 at a cache whose query for jobs fails and whose query for pods returns two
objects, against the same cache with the query for jobs answered: four groups;
the Workloads group is present, lists every workload kind but jobs, and its pods
entry holds the two pods in returned order. -/
theorem getApp_failure_isolation_witness :
    (getApp emptyWorld groupToTypeMap "ns1" "web" sampleSearch).Groups.length = 4 ∧
      (∃ g ∈ (getApp emptyWorld groupToTypeMap "ns1" "web" sampleSearch).Groups,
        g.GroupName = "Workloads" ∧
        g.List.map (fun r => r.Name) =
          ["deployments", "statefulsets", "daemonsets", "cronjobs", "pods"] ∧
        (∃ r ∈ g.List, r.Name = "pods" ∧
          r.List = [⟨⟨"web", "p1"⟩, none⟩, ⟨⟨"web", "p2"⟩, none⟩]) ∧
        ∀ r ∈ g.List, r.Name ≠ "jobs") ∧
      (getApp emptyWorld groupToTypeMap "ns1" "web" sampleSearch).Groups =
        (getApp emptyWorld groupToTypeMap "ns1" "web" sampleSearchHealthy).Groups.map
          (fun g => { GroupName := g.GroupName
                      List := g.List.filter (fun r => querySucceeds sampleSearch "ns1" r.Name) }) := by
  have main := getApp_failure_isolation emptyWorld groupToTypeMap "ns1" "web" sampleSearch
    sampleSearchHealthy (List.Perm.refl _) (by decide) (by decide)
  refine ⟨main.1, ?_, main.2.2.2.2⟩
  obtain ⟨g, hg, _, _, hn, _, hnames, _, _, hpres, habs⟩ := main.2.1
    ("Workloads", ["deployments", "statefulsets", "daemonsets", "jobs", "cronjobs", "pods"])
    (by decide)
  refine ⟨g, hg, hn, ?_, ?_, ?_⟩
  · rw [hnames]; decide
  · obtain ⟨r, hr, hrn, _, hrl⟩ := hpres "pods" (by decide) (by decide)
    exact ⟨r, hr, hrn, by rw [hrl]; decide⟩
  · exact habs "jobs" (by decide) (by decide)

/-- C10, the claim as stated fails: with the same inputs and the same collaborator
answers, two admissible iteration orders of the map give the groups in different
orders. -/
theorem getApp_group_order_depends_on_range :
    IsRangeOrder groupToTypeMap ∧ IsRangeOrder groupToTypeMap.reverse ∧
      (getApp emptyWorld groupToTypeMap "ns1" "web" emptySearch).Groups.map
          (fun g => g.GroupName) = ["Workloads", "Networks", "Configurations", "Storages"] ∧
      (getApp emptyWorld groupToTypeMap.reverse "ns1" "web" emptySearch).Groups.map
          (fun g => g.GroupName) = ["Storages", "Configurations", "Networks", "Workloads"] ∧
      (getApp emptyWorld groupToTypeMap "ns1" "web" emptySearch).Groups ≠
        (getApp emptyWorld groupToTypeMap.reverse "ns1" "web" emptySearch).Groups := by
  refine ⟨List.Perm.refl _, List.reverse_perm _, by decide, by decide, by decide⟩

/-- C10, amended. The groups of an App come in the order in which the `range` of
line 164 visits the map; for any two admissible iteration orders the two Apps
hold the same four groups with the same contents, in possibly different order. -/
theorem getApp_groups_follow_range_order (w : Collaborators)
    (o₁ o₂ : List (String × List String)) (ns appName : String) (search : Search)
    (h₁ : IsRangeOrder o₁) (h₂ : IsRangeOrder o₂) :
    (getApp w o₁ ns appName search).Groups.map (fun g => g.GroupName) =
        o₁.map (fun entry => entry.1) ∧
      ((getApp w o₁ ns appName search).Groups).Perm (getApp w o₂ ns appName search).Groups ∧
      (getApp w o₁ ns appName search).Name = (getApp w o₂ ns appName search).Name := by
  rw [getApp_groups_eq, getApp_groups_eq]
  refine ⟨?_, ?_, rfl⟩
  · rw [List.map_map]
    apply List.map_congr_left
    intro entry _
    rfl
  · exact List.Perm.map _ (h₁.trans h₂.symm)

/-- C10, amended, at the written order and its reverse. -/
theorem getApp_groups_follow_range_order_witness :
    IsRangeOrder groupToTypeMap ∧ IsRangeOrder groupToTypeMap.reverse ∧
      ((getApp emptyWorld groupToTypeMap "ns1" "web" sampleSearch).Groups).Perm
        (getApp emptyWorld groupToTypeMap.reverse "ns1" "web" sampleSearch).Groups :=
  ⟨List.Perm.refl _, List.reverse_perm _,
    (getApp_groups_follow_range_order emptyWorld groupToTypeMap groupToTypeMap.reverse "ns1" "web"
      sampleSearch (List.Perm.refl _) (List.reverse_perm _)).2.1⟩

theorem metasLess_eq_chars : metasLess = metasLessChars := by
  funext mi mj
  cases mi <;> cases mj <;>
    simp only [metasLess, metasLessChars, metaName, gt_iff_lt, String.lt_iff_toList_lt]

theorem metasLess_iff (mi mj : Option ApplicationMeta) :
    metasLess mi mj = true ↔ metaName mi ≤ metaName mj := by
  have h : metasLess mi mj = if metaName mi > metaName mj then false else true := by
    cases mi <;> cases mj <;> rfl
  rw [h]
  by_cases hgt : metaName mi > metaName mj
  · rw [if_pos hgt]
    simp only [Bool.false_eq_true, false_iff, not_le]
    exact hgt
  · rw [if_neg hgt]
    simp only [true_iff]
    exact not_lt.1 hgt

theorem metasLess_compat : GoSort.Compat metasLess metaName := by
  constructor
  · intro x y h
    exact (metasLess_iff x y).1 h
  · intro x y h
    have : ¬ metaName x ≤ metaName y := fun hle => by
      rw [(metasLess_iff x y).2 hle] at h
      exact Bool.noConfusion h
    exact le_of_lt (not_le.1 this)

/-- C3. For a request of kind "app" or "application" with an empty resource name
that reaches the registry (line 66 does not return), a non-nil list of metas comes
back as a permutation of itself, nil entries included, sorted ascending by
application name with a nil entry counting as the empty name; a nil list comes
back unchanged. -/
theorem applicationList_sorted (w : Collaborators)
    (rangeOrder : Nat → Nat → List (String × List String)) (request : GetResourceInfoCommand)
    (hkind : request.Resource = "app" ∨ request.Resource = "application")
    (hname : request.ResourceName = "")
    (herr : HandleGetResourceInfoRequest.err w request = none) :
    (∀ metas, w.GetApplicationMetas request.Namespace request.KubeConfig = some metas →
        ∃ sorted, HandleGetResourceInfoRequest w rangeOrder request = Response.metas (some sorted) ∧
          sorted.Perm metas ∧ sorted.Pairwise (fun u v => metaName u ≤ metaName v)) ∧
      (w.GetApplicationMetas request.Namespace request.KubeConfig = none →
        HandleGetResourceInfoRequest w rangeOrder request = Response.metas none) := by
  have hall : request.Resource ≠ "all" := by
    rcases hkind with h | h <;> rw [h] <;> decide
  refine ⟨?_, ?_⟩
  · intro metas hm
    obtain ⟨hp, hs⟩ := GoSort.SliceStable_spec metasLess_compat metas
    refine ⟨GoSort.SliceStable metas metasLess, ?_, hp, hs⟩
    unfold HandleGetResourceInfoRequest
    simp only [herr, ne_eq, not_true_eq_false, if_false, hall, hkind, if_true, hname, hm]
  · intro hm
    unfold HandleGetResourceInfoRequest
    simp only [herr, ne_eq, not_true_eq_false, if_false, hall, hkind, if_true, hname, hm]

/-- C3 at a registry list of three entries, one of them nil. -/
theorem applicationList_sorted_witness :
    ∃ sorted, HandleGetResourceInfoRequest sampleWorld writtenOrder ⟨"kc", "ns1", "", "app", ""⟩ =
        Response.metas (some sorted) ∧
      sorted.Perm sampleMetas ∧ sorted.Pairwise (fun u v => metaName u ≤ metaName v) :=
  (applicationList_sorted sampleWorld writtenOrder ⟨"kc", "ns1", "", "app", ""⟩ (Or.inl rfl) rfl
    (by decide)).1 sampleMetas rfl

/-- C4, evaluated at a registry list with a tie: the two entries named "web" come
back in the opposite order (the entry with state INSTALLED is first in the
registry's list and last in the returned list). -/
theorem applicationList_ties_reversed :
    sampleWorld.GetApplicationMetas "ns1" "kc" =
        some [some ⟨"INSTALLED", "ns1", "web"⟩, none, some ⟨"INSTALLING", "ns1", "web"⟩] ∧
      HandleGetResourceInfoRequest sampleWorld writtenOrder ⟨"kc", "ns1", "", "app", ""⟩ =
        Response.metas
          (some [none, some ⟨"INSTALLING", "ns1", "web"⟩, some ⟨"INSTALLED", "ns1", "web"⟩]) := by
  refine ⟨rfl, ?_⟩
  have h : HandleGetResourceInfoRequest sampleWorld writtenOrder ⟨"kc", "ns1", "", "app", ""⟩ =
      Response.metas (some (GoSort.SliceStable sampleMetas metasLess)) := rfl
  rw [h, metasLess_eq_chars]
  decide

theorem string_ne_of_not_app {r : String} (h1 : r ≠ "app") (h2 : r ≠ "application") :
    ¬ (r = "app" ∨ r = "application") := by
  rintro (h | h)
  · exact h1 h
  · exact h2 h

/-- C5. For kind "all" and an empty request namespace, when the cache handle is
obtained and the namespace enumeration succeeds with a non-empty list, the handler
returns one Result per enumerated namespace object, in enumeration order, the
`i`-th being `getApplicationByNs` of the `i`-th object's name; and
`getApplicationByNs` yields one App per non-nil meta of the namespace, in registry
order, skipping nil metas. -/
theorem allNamespaces_results (w : Collaborators)
    (rangeOrder : Nat → Nat → List (String × List String)) (request : GetResourceInfoCommand)
    (objs : List Object) (hkind : request.Resource = "all") (hns : request.Namespace = "")
    (hs : (HandleGetResourceInfoRequest.search w request).2 = none)
    (henum : (HandleGetResourceInfoRequest.search w request).1.GetAllByResourceType "namespaces"
      = (objs, none))
    (hne : objs ≠ []) :
    (HandleGetResourceInfoRequest w rangeOrder request =
        Response.results (objs.enum.map (fun io =>
          getApplicationByNs w (rangeOrder io.1) io.2.Name request.KubeConfig
            (HandleGetResourceInfoRequest.search w request).1)) ∧
      (objs.enum.map (fun io =>
          getApplicationByNs w (rangeOrder io.1) io.2.Name request.KubeConfig
            (HandleGetResourceInfoRequest.search w request).1)).length = objs.length ∧
      (objs.enum.map (fun io =>
          getApplicationByNs w (rangeOrder io.1) io.2.Name request.KubeConfig
            (HandleGetResourceInfoRequest.search w request).1)).map (fun r => r.Namespace)
        = objs.map (fun o => o.Name)) ∧
      (∀ (order : Nat → List (String × List String)) (ns : String) (search : Search),
        (getApplicationByNs w order ns request.KubeConfig search).Namespace = ns ∧
        (getApplicationByNs w order ns request.KubeConfig search).Application =
          ((w.GetApplicationMetas ns request.KubeConfig).getD []).enum.filterMap
            (fun im => im.2.map (fun applicationMeta =>
              getApp w (order im.1) ns applicationMeta.Application search)) ∧
        (getApplicationByNs w order ns request.KubeConfig search).Application.map
            (fun a => a.Name) =
          (((w.GetApplicationMetas ns request.KubeConfig).getD []).filterMap id).map
            (fun applicationMeta => applicationMeta.Application)) := by
  have _ := hs
  refine ⟨⟨?_, ?_, ?_⟩, ?_⟩
  · have herr : HandleGetResourceInfoRequest.err w request = none := by
      unfold HandleGetResourceInfoRequest.err
      rw [if_pos hns]
    have hlen : objs.length > 0 := List.length_pos.2 hne
    unfold HandleGetResourceInfoRequest
    simp only [herr, ne_eq, not_true_eq_false, if_false, hkind, if_true, hns, henum, hlen,
      and_self, foldl_append_singleton, List.nil_append]
  · simp
  · rw [List.map_map]
    have : ((fun r : Result => r.Namespace) ∘ fun io : Nat × Object =>
        getApplicationByNs w (rangeOrder io.1) io.2.Name request.KubeConfig
          (HandleGetResourceInfoRequest.search w request).1) = (fun o => o.Name) ∘ Prod.snd := by
      funext io
      rfl
    rw [this, ← List.map_map, List.enum_map_snd]
  · intro order ns search
    refine ⟨rfl, getApplicationByNs_eq w order ns request.KubeConfig search, ?_⟩
    rw [getApplicationByNs_eq]
    generalize (w.GetApplicationMetas ns request.KubeConfig).getD [] = metas
    have key : ∀ (l : List (Nat × Option ApplicationMeta)),
        (l.filterMap (fun im => im.2.map (fun applicationMeta =>
          getApp w (order im.1) ns applicationMeta.Application search))).map (fun a => a.Name) =
        ((l.map Prod.snd).filterMap id).map (fun applicationMeta => applicationMeta.Application) := by
      intro l
      induction l with
      | nil => rfl
      | cons x t ih =>
        obtain ⟨i, m⟩ := x
        cases m with
        | none => simpa using ih
        | some m =>
          simp only [List.filterMap_cons, Option.map_some', List.map_cons, id, ih]
          rfl
    rw [key, List.enum_map_snd]

/-- C5 at a cluster whose enumeration yields ns1 and ns2. -/
theorem allNamespaces_results_witness :
    HandleGetResourceInfoRequest sampleWorld writtenOrder ⟨"kc", "", "", "all", ""⟩ =
      Response.results ([(⟨"ns1", "n1"⟩ : Object), ⟨"ns2", "n2"⟩].enum.map (fun io =>
        getApplicationByNs sampleWorld (writtenOrder io.1) io.2.Name "kc"
          (HandleGetResourceInfoRequest.search sampleWorld ⟨"kc", "", "", "all", ""⟩).1)) :=
  (allNamespaces_results sampleWorld writtenOrder ⟨"kc", "", "", "all", ""⟩
    [⟨"ns1", "n1"⟩, ⟨"ns2", "n2"⟩] rfl rfl rfl rfl (by decide)).1.1

/-- C6, evaluated at a credential that parses without error into a client config
whose context namespace is "dev": the variable `ns` stays empty, the cache handle
is requested for the empty namespace, and the fallback Result of the "all" branch
carries the empty namespace. -/
theorem defaultNamespace_not_derived :
    noEnumerationWorld.NewClientConfigFromBytes "kc" = (some ⟨("dev", false, none)⟩, none) ∧
      HandleGetResourceInfoRequest.ns noEnumerationWorld ⟨"kc", "", "", "all", ""⟩ = "" ∧
      HandleGetResourceInfoRequest.search noEnumerationWorld ⟨"kc", "", "", "all", ""⟩ =
        noEnumerationWorld.GetSearch "kc" "" ∧
      HandleGetResourceInfoRequest noEnumerationWorld writtenOrder ⟨"kc", "", "", "all", ""⟩ =
        Response.result { Namespace := "", Application := [] } := by
  refine ⟨rfl, by decide, rfl, by decide⟩

/-- C7, the claim as stated fails: with namespace "ns1" in the request and a
cluster whose enumeration yields ns1 and ns2, the handler returns a single Result
for ns1, not a list of two. -/
theorem all_with_namespace_not_a_list :
    (sampleSearch.GetAllByResourceType "namespaces").1.map (fun o => o.Name) = ["ns1", "ns2"] ∧
      (∃ r, HandleGetResourceInfoRequest sampleWorld writtenOrder ⟨"kc", "ns1", "", "all", ""⟩ =
        Response.result r ∧ r.Namespace = "ns1") ∧
      ∀ l, HandleGetResourceInfoRequest sampleWorld writtenOrder ⟨"kc", "ns1", "", "all", ""⟩ ≠
        Response.results l := by
  have h : HandleGetResourceInfoRequest sampleWorld writtenOrder ⟨"kc", "ns1", "", "all", ""⟩ =
      Response.result (getApplicationByNs sampleWorld (writtenOrder 0) "ns1" "kc"
        (HandleGetResourceInfoRequest.search sampleWorld ⟨"kc", "ns1", "", "all", ""⟩).1) := rfl
  refine ⟨by decide, ⟨_, h, rfl⟩, ?_⟩
  intro l hl
  rw [h] at hl
  exact Response.noConfusion hl

/-- C7, amended. For the request with namespace "ns1", kind "all" and an empty
application name, when the cache handle is obtained the handler returns a single
Result, the one `getApplicationByNs` builds for "ns1", whatever the namespace
enumeration would yield: a request that names a namespace never consults the
enumeration. -/
theorem all_with_namespace_single_result (w : Collaborators)
    (rangeOrder : Nat → Nat → List (String × List String)) (request : GetResourceInfoCommand)
    (hns : request.Namespace = "ns1") (hkind : request.Resource = "all")
    (happ : request.AppName = "")
    (hs : (HandleGetResourceInfoRequest.search w request).2 = none) :
    HandleGetResourceInfoRequest w rangeOrder request =
        Response.result (getApplicationByNs w (rangeOrder 0) "ns1" request.KubeConfig
          (HandleGetResourceInfoRequest.search w request).1) ∧
      (getApplicationByNs w (rangeOrder 0) "ns1" request.KubeConfig
          (HandleGetResourceInfoRequest.search w request).1).Namespace = "ns1" := by
  have hne : request.Namespace ≠ "" := by rw [hns]; decide
  have herr : HandleGetResourceInfoRequest.err w request = none := by
    unfold HandleGetResourceInfoRequest.err
    rw [if_neg hne, hs]
  refine ⟨?_, rfl⟩
  have _ := happ
  unfold HandleGetResourceInfoRequest
  simp only [herr, ne_eq, not_true_eq_false, if_false, hkind, if_true, hns]
  rw [if_neg (by decide)]

/-- C7, amended, at a cluster whose enumeration yields ns1 and ns2. -/
theorem all_with_namespace_single_result_witness :
    HandleGetResourceInfoRequest sampleWorld writtenOrder ⟨"kc", "ns1", "", "all", ""⟩ =
      Response.result (getApplicationByNs sampleWorld (writtenOrder 0) "ns1" "kc"
        (HandleGetResourceInfoRequest.search sampleWorld ⟨"kc", "ns1", "", "all", ""⟩).1) :=
  (all_with_namespace_single_result sampleWorld writtenOrder ⟨"kc", "ns1", "", "all", ""⟩
    rfl rfl rfl rfl).1

theorem err_of_search_ok (w : Collaborators) (request : GetResourceInfoCommand)
    (hs : (HandleGetResourceInfoRequest.search w request).2 = none) :
    HandleGetResourceInfoRequest.err w request = none := by
  unfold HandleGetResourceInfoRequest.err
  split_ifs
  · rfl
  · exact hs

/-- The generic branch (lines 110-140) when the query fails or finds nothing. -/
theorem generic_branch_nil (w : Collaborators)
    (rangeOrder : Nat → Nat → List (String × List String)) (request : GetResourceInfoCommand)
    (h1 : request.Resource ≠ "all") (h2 : request.Resource ≠ "app")
    (h3 : request.Resource ≠ "application")
    (hs : (HandleGetResourceInfoRequest.search w request).2 = none)
    (hq : (HandleGetResourceInfoRequest.query w request).2 ≠ none ∨
      (HandleGetResourceInfoRequest.query w request).1 = []) :
    HandleGetResourceInfoRequest w rangeOrder request = Response.nil := by
  have herr := err_of_search_ok w request hs
  have h23 := string_ne_of_not_app h2 h3
  unfold HandleGetResourceInfoRequest.query at hq
  unfold HandleGetResourceInfoRequest
  simp only [herr, ne_eq, not_true_eq_false, if_false, h1, h23, List.length_eq_zero]
  by_cases hname : request.ResourceName = ""
  · rw [hname] at hq
    rw [if_pos hname, if_pos hq]
  · rw [if_neg hname, if_pos hq]

/-- The generic branch without a resource name (lines 114-128) when the query
succeeds with at least one object. -/
theorem generic_branch_items (w : Collaborators)
    (rangeOrder : Nat → Nat → List (String × List String)) (request : GetResourceInfoCommand)
    (h1 : request.Resource ≠ "all") (h2 : request.Resource ≠ "app")
    (h3 : request.Resource ≠ "application")
    (hs : (HandleGetResourceInfoRequest.search w request).2 = none)
    (hname : request.ResourceName = "")
    (hq : ¬ ((HandleGetResourceInfoRequest.query w request).2 ≠ none ∨
      (HandleGetResourceInfoRequest.query w request).1 = [])) :
    HandleGetResourceInfoRequest w rangeOrder request =
      Response.items ((w.SortByCreateTimestampAsc
        (HandleGetResourceInfoRequest.query w request).1).1.map (fun i =>
          { Metadata := i
            Description := getServiceProfile w request.Namespace request.ResourceName i.Name })) := by
  have herr := err_of_search_ok w request hs
  have h23 := string_ne_of_not_app h2 h3
  unfold HandleGetResourceInfoRequest.query at hq ⊢
  rw [hname] at hq ⊢
  unfold HandleGetResourceInfoRequest
  simp only [herr, ne_eq, not_true_eq_false, if_false, h1, h23, List.length_eq_zero]
  rw [if_pos hname, if_neg hq, foldl_append_singleton, List.nil_append, hname]

/-- The generic branch with a resource name (lines 129-140) when the query
succeeds with at least one object. -/
theorem generic_branch_item (w : Collaborators)
    (rangeOrder : Nat → Nat → List (String × List String)) (request : GetResourceInfoCommand)
    (h1 : request.Resource ≠ "all") (h2 : request.Resource ≠ "app")
    (h3 : request.Resource ≠ "application")
    (hs : (HandleGetResourceInfoRequest.search w request).2 = none)
    (hname : request.ResourceName ≠ "") (x : Object) (rest : List Object)
    (hq : HandleGetResourceInfoRequest.query w request = (x :: rest, none)) :
    HandleGetResourceInfoRequest w rangeOrder request =
      Response.item
        { Metadata := x
          Description := getServiceProfile w request.Namespace request.ResourceName x.Name } := by
  have herr := err_of_search_ok w request hs
  have h23 := string_ne_of_not_app h2 h3
  unfold HandleGetResourceInfoRequest.query at hq
  unfold HandleGetResourceInfoRequest
  simp only [herr, ne_eq, not_true_eq_false, if_false, h1, h23, List.length_eq_zero]
  rw [if_neg hname, hq]
  simp

/-- C8. For a generic kind and a non-empty resource name, when the cache query
succeeds with at least one object the handler returns a single Item, never a list,
however many objects came back: its metadata is the first object and its
description the service-profile lookup by that object's name. The query is the
plain cache method when the application name is empty and the application-aware
one otherwise. -/
theorem namedResource_single_item (w : Collaborators)
    (rangeOrder : Nat → Nat → List (String × List String)) (request : GetResourceInfoCommand)
    (x : Object) (rest : List Object)
    (h1 : request.Resource ≠ "all") (h2 : request.Resource ≠ "app")
    (h3 : request.Resource ≠ "application") (hname : request.ResourceName ≠ "")
    (hs : (HandleGetResourceInfoRequest.search w request).2 = none) :
    (request.AppName = "" →
        (HandleGetResourceInfoRequest.search w request).1.GetByResourceAndNamespace
          request.Resource request.ResourceName request.Namespace = (x :: rest, none) →
        HandleGetResourceInfoRequest w rangeOrder request =
          Response.item
            { Metadata := x
              Description :=
                getServiceProfile w request.Namespace request.ResourceName x.Name }) ∧
      (request.AppName ≠ "" →
        (HandleGetResourceInfoRequest.search w request).1.GetByResourceAndNameAndAppAndNamespace
          request.Resource request.ResourceName request.AppName request.Namespace
            = (x :: rest, none) →
        HandleGetResourceInfoRequest w rangeOrder request =
          Response.item
            { Metadata := x
              Description :=
                getServiceProfile w request.Namespace request.ResourceName x.Name }) := by
  refine ⟨?_, ?_⟩
  · intro happ hq
    refine generic_branch_item w rangeOrder request h1 h2 h3 hs hname x rest ?_
    unfold HandleGetResourceInfoRequest.query
    rw [if_pos happ, hq]
  · intro happ hq
    refine generic_branch_item w rangeOrder request h1 h2 h3 hs hname x rest ?_
    unfold HandleGetResourceInfoRequest.query
    rw [if_neg happ, hq]

/-- C8 at a query for the pod "web" that returns two objects. -/
theorem namedResource_single_item_witness :
    HandleGetResourceInfoRequest sampleWorld writtenOrder ⟨"kc", "ns1", "", "pods", "web"⟩ =
      Response.item
        { Metadata := ⟨"web", "p1"⟩
          Description := getServiceProfile sampleWorld "ns1" "web" "web" } :=
  (namedResource_single_item sampleWorld writtenOrder ⟨"kc", "ns1", "", "pods", "web"⟩
    ⟨"web", "p1"⟩ [⟨"web", "p2"⟩] (by decide) (by decide) (by decide) (by decide) rfl).1 rfl rfl

/-- C9. For a generic kind, with or without a resource name or an application
name, when the cache handle is obtained the handler returns nil exactly when the
cache query returns an error or no object; a successful non-empty query gives
neither nil nor an empty list. -/
theorem genericKind_nil_iff (w : Collaborators)
    (rangeOrder : Nat → Nat → List (String × List String)) (request : GetResourceInfoCommand)
    (h1 : request.Resource ≠ "all") (h2 : request.Resource ≠ "app")
    (h3 : request.Resource ≠ "application")
    (hs : (HandleGetResourceInfoRequest.search w request).2 = none) :
    (HandleGetResourceInfoRequest w rangeOrder request = Response.nil ↔
        ((HandleGetResourceInfoRequest.query w request).2 ≠ none ∨
          (HandleGetResourceInfoRequest.query w request).1 = [])) ∧
      HandleGetResourceInfoRequest w rangeOrder request ≠ Response.items [] := by
  by_cases hq : (HandleGetResourceInfoRequest.query w request).2 ≠ none ∨
      (HandleGetResourceInfoRequest.query w request).1 = []
  · rw [generic_branch_nil w rangeOrder request h1 h2 h3 hs hq]
    exact ⟨⟨fun _ => hq, fun _ => rfl⟩, fun h => Response.noConfusion h⟩
  · have hne : (HandleGetResourceInfoRequest.query w request).1 ≠ [] := fun h => hq (Or.inr h)
    have herr : (HandleGetResourceInfoRequest.query w request).2 = none := by
      by_contra h
      exact hq (Or.inl h)
    by_cases hname : request.ResourceName = ""
    · rw [generic_branch_items w rangeOrder request h1 h2 h3 hs hname hq]
      have hlen : (w.SortByCreateTimestampAsc
          (HandleGetResourceInfoRequest.query w request).1).1 ≠ [] := by
        intro h
        have := (w.SortByCreateTimestampAsc (HandleGetResourceInfoRequest.query w request).1).2
        rw [h] at this
        exact hne (List.length_eq_zero.1 this.symm)
      refine ⟨⟨fun h => Response.noConfusion h, fun h => absurd h hq⟩, ?_⟩
      intro h
      injection h with h
      exact hlen (List.map_eq_nil_iff.1 h)
    · obtain ⟨x, rest, hl⟩ := List.exists_cons_of_ne_nil hne
      have hquery : HandleGetResourceInfoRequest.query w request = (x :: rest, none) :=
        Prod.ext hl herr
      rw [generic_branch_item w rangeOrder request h1 h2 h3 hs hname x rest hquery]
      exact ⟨⟨fun h => Response.noConfusion h, fun h => absurd h hq⟩,
        fun h => Response.noConfusion h⟩

/-- C9 at a query for jobs that returns an error. -/
theorem genericKind_nil_iff_witness :
    (HandleGetResourceInfoRequest sampleWorld writtenOrder ⟨"kc", "ns1", "", "jobs", ""⟩ =
        Response.nil ↔
      ((HandleGetResourceInfoRequest.query sampleWorld ⟨"kc", "ns1", "", "jobs", ""⟩).2 ≠ none ∨
        (HandleGetResourceInfoRequest.query sampleWorld ⟨"kc", "ns1", "", "jobs", ""⟩).1 = [])) ∧
      HandleGetResourceInfoRequest sampleWorld writtenOrder ⟨"kc", "ns1", "", "jobs", ""⟩ ≠
        Response.items [] :=
  genericKind_nil_iff sampleWorld writtenOrder ⟨"kc", "ns1", "", "jobs", ""⟩
    (by decide) (by decide) (by decide) rfl

end Nocalhost
